import Mathlib

/-!
Formal model of the core of the `raedatoui/router` federated GraphQL gateway:
the query-plan execution engine of
`src/apollo-router/src/query_planner/execution.rs`, the event-stream merge of
`src/apollo-router/src/lib.rs`, and the multipart content-type constant of
`src/apollo-router/src/services/mod.rs`.

The JSON value tree, `deep_merge`, `Path`, the GraphQL `Response`/`Error`
models and the subgraph transport live in the `apollo-router-core` crate,
which is not part of the source slice; those parts are modelled from the
specification (each such definition carries a doc comment starting with
`Modelled from the spec:`).
-/

namespace Router

/-- Modelled from the spec: the JSON value tree of §3 (`apollo-router-core`'s
`json_ext::Value` is not in the source slice).  "JSON value (null, bool,
number, string, array, object). The object variant preserves insertion order",
so objects are ordered association lists.  Numbers are modelled as integers;
the numeric representation plays no role in the executor. -/
inductive Value where
  | null : Value
  | bool (b : Bool) : Value
  | num (n : Int) : Value
  | str (s : String) : Value
  | arr (elems : List Value) : Value
  | obj (fields : List (String × Value)) : Value

/-- First binding of a key in an ordered object field list. -/
def findField (fields : List (String × Value)) (key : String) : Option Value :=
  match fields with
  | [] => none
  | (k, v) :: rest => if k = key then some v else findField rest key

/-- Modelled from the spec: `Value::deep_merge` of §4.1 (`json_ext.rs` is not
in the source slice).  "object∪object merges keys (right wins per leaf; nested
objects recurse); array∪array merges index-wise"; "arrays are element-wise
merged up to max(len(a),len(b)); a shorter array is padded with the other's
trailing elements. Object key order in `a` is preserved; keys appearing only
in `b` are appended in `b`'s order."  Per §4.1 the merged value at a leaf path
is "`b[p]` if present, else the original `a[p]`"; a `null` on the right marks
absence of a written leaf, so it leaves the left value unchanged. -/
def deepMerge : Value → Value → Value
  | .obj a, .obj b =>
      .obj ((a.attach.map (fun p =>
          (p.1.1, match findField b p.1.1 with
            | some w => deepMerge p.1.2 w
            | none => p.1.2)))
        ++ b.filter (fun q => (findField a q.1).isNone))
  | .arr a, .arr b =>
      .arr (((a.zip b).attach.map (fun p => deepMerge p.1.1 p.1.2))
        ++ a.drop b.length ++ b.drop a.length)
  | v, .null => v
  | _, b => b
termination_by a _ => sizeOf a
decreasing_by
  · obtain ⟨⟨k, v⟩, hp⟩ := p
    have h1 : sizeOf (k, v) < sizeOf a := List.sizeOf_lt_of_mem hp
    simp only [Value.obj.sizeOf_spec]
    simp at h1
    omega
  · obtain ⟨⟨x, y⟩, hp⟩ := p
    have hmem : x ∈ a := (List.of_mem_zip hp).1
    have h1 : sizeOf x < sizeOf a := List.sizeOf_lt_of_mem hmem
    simp only [Value.arr.sizeOf_spec]
    omega

/-- Modelled from the spec: JSON serialization of a value, §4.1: "This
ordering is observable via serialization and must be stable across runs for
identical inputs."  String escaping is not modelled; keys and strings in the
modelled scenarios are plain. -/
def serializeValue : Value → String
  | .null => "null"
  | .bool true => "true"
  | .bool false => "false"
  | .num n => toString n
  | .str s => "\"" ++ s ++ "\""
  | .arr xs =>
      "[" ++ String.intercalate "," (xs.attach.map (fun p => serializeValue p.1)) ++ "]"
  | .obj fs =>
      "\x7b" ++ String.intercalate ","
        (fs.attach.map (fun p => "\"" ++ p.1.1 ++ "\":" ++ serializeValue p.1.2)) ++ "\x7d"
termination_by v => sizeOf v
decreasing_by
  · obtain ⟨x, hp⟩ := p
    have h1 : sizeOf x < sizeOf xs := List.sizeOf_lt_of_mem hp
    simp only [Value.arr.sizeOf_spec]
    omega
  · obtain ⟨⟨k, v⟩, hp⟩ := p
    have h1 : sizeOf (k, v) < sizeOf fs := List.sizeOf_lt_of_mem hp
    simp only [Value.obj.sizeOf_spec]
    simp at h1
    omega

/-- Modelled from the spec: a path segment (§3): field key, array index,
type condition, or the `Flatten` marker (`json_ext::Path` is not in the
source slice). -/
inductive PathElement where
  | key (k : String)
  | index (i : Nat)
  | typeCond (t : String)
  | flatten
deriving DecidableEq

/-- Modelled from the spec: `Path` is an "ordered sequence of segments" (§3);
`Path::empty()`/`Path::default()` is `[]` and `join` appends. -/
abbrev Path := List PathElement

/-- Modelled from the spec: GraphQL error (§3).  Only the fields the executor
touches are modelled: `message` and the optional `path`. -/
structure Error where
  message : String
  path : Option Path
deriving DecidableEq

/-- Modelled from the spec: a transport-layer fetch failure (§4.2/§7,
`FetchError`); its payload is opaque to the executor. -/
structure FetchError where
  message : String
deriving DecidableEq

/-- Modelled from the spec: `FetchError::to_graphql_error(path)` converts the
failure into "a single GraphQL error with `path = current_dir`" (§4.3). -/
def toGraphqlError (e : FetchError) (path : Option Path) : Error :=
  { message := e.message, path := path }

/-- Modelled from the spec: `Response` (§3):
`{ data, errors, path?, label?, subselection?, has_next?, .. }`; the builder
leaves every optional field unset unless it is given one. -/
structure Response where
  data : Value
  errors : List Error
  path : Option Path := none
  label : Option String := none
  subselection : Option String := none
  has_next : Option Bool := none

/-- The fetch node.  `execute_recursively` reads `service_name` (for the
span) and hands the whole node to `FetchNode::fetch_node`; the fetch `id`
keys the deferred-fetch broadcast registry (§4.3 Fetch, §9).  The remaining
fields (operation, variable_usages, requires, output_rewrites) only feed the
subgraph call, which is modelled by the transport oracle. -/
structure FetchNode where
  service_name : String
  id : String
deriving DecidableEq

/-- The `primary` part of a `Defer` node (`query_planner::Primary`),
parameterized by the plan-node type.  `execute_recursively` ignores
`path` (it binds it as `_primary_path`). -/
structure PrimaryF (P : Type) where
  path : Option Path
  subselection : Option String
  node : Option P

/-- `query_planner::DeferredNode`, parameterized by the plan-node type.
`depends` is flattened to the list of fetch ids (`Depends { id }`). -/
structure DeferredNodeF (P : Type) where
  depends : List String
  path : Path
  subselection : Option String
  label : Option String
  node : Option P

/-- `query_planner::PlanNode` (§3 PlanNode): the plan-node tree consumed by
`execute_recursively`. -/
inductive PlanNode where
  | sequence (nodes : List PlanNode)
  | parallel (nodes : List PlanNode)
  | flatten (path : Path) (node : PlanNode)
  | fetch (f : FetchNode)
  | defer (primary : PrimaryF PlanNode) (deferred : List (DeferredNodeF PlanNode))
  | condition (condition : String) (if_clause : Option PlanNode)
      (else_clause : Option PlanNode)

abbrev DeferredNode := DeferredNodeF PlanNode

abbrev Primary := PrimaryF PlanNode

/-- The transport outcome of one subgraph fetch: either the fetched value
(already keyed under `current_dir`) with the subgraph's GraphQL errors, or a
transport-layer failure.  Modelled from the spec (§4.2; the body of
`FetchNode::fetch_node` is not in the source slice). -/
abbrev FetchOutcome := Except FetchError (Value × List Error)

/-- The execution arguments that do not change between calls
(`ExecutionParameters`): the request variables (for `Condition`; modelled
from the spec, §4.3 Condition, since `Query::variable_value` is not in the
source slice), the subgraph transport oracle (service factory + schema +
supergraph request), and the ids registered in the deferred-fetch broadcast
registry of the nearest enclosing `Defer`. -/
structure ExecParams where
  vars : List (String × Value)
  fetchResult : FetchNode → Path → Value → FetchOutcome
  deferred_fetches : List String

/-- The outcome of executing one plan node: the `(value, subselection,
errors)` triple returned by `execute_recursively`, together with the channel
effects this sequential model makes explicit: `emitted` — the deferred
`Response`s sent on the `mpsc` response sender, in the order the model
produces them (primary-subtree chunks first, then each deferred branch in
declaration order); `published` — the `(fetch id, value, errors)` messages
sent on the deferred-fetch broadcast senders registered by the nearest
enclosing `Defer`. -/
structure ExecResult where
  value : Value
  subselection : Option String
  errors : List Error
  emitted : List Response
  published : List (String × Value × List Error)

/-- First `(value, errors)` message on the broadcast channel of a fetch id
(the channels have capacity 1, so only the first send is received). -/
def lookupPublished : List (String × Value × List Error) → String →
    Option (Value × List Error)
  | [], _ => none
  | (id, v, e) :: rest, wanted =>
      if id = wanted then some (v, e) else lookupPublished rest wanted

/-- The receive loop of `DeferredNode::execute` for a non-empty `depends`
list (execution.rs 385-394): starting from the cloned parent value, receive
one `(value, errors)` pair per depended-on fetch id and `deep_merge` it in;
a fetch that never published (dropped sender) is skipped. -/
def mergeReceived (parent : Value)
    (published : List (String × Value × List Error)) (depends : List String) :
    Value × List Error :=
  depends.foldl (fun acc id =>
    match lookupPublished published id with
    | some (v, e) => (deepMerge acc.1 v, acc.2 ++ e)
    | none => acc) (parent, [])

mutual

/-- `PlanNode::execute_recursively` (execution.rs 89-325).  The `Parallel`
children are evaluated by `FuturesUnordered` and merged in completion order;
this sequential model merges them in declaration order (one admissible
completion order).  The `Defer` case spawns the deferred branches before
running the primary; the model runs the primary first and hands the deferred
branches the primary value and the published broadcast messages they would
have received. -/
def execNode (P : ExecParams) (current_dir : Path) (parent_value : Value) :
    PlanNode → ExecResult
  | .sequence nodes => execSeq P current_dir nodes parent_value none
  | .parallel nodes => execPar P current_dir parent_value nodes .null
  | .flatten path node => execNode P (current_dir ++ path) parent_value node
  | .fetch f =>
      match P.fetchResult f current_dir parent_value with
      | .ok (v, e) =>
          { value := v, subselection := none, errors := e, emitted := [],
            published := if f.id ∈ P.deferred_fetches then [(f.id, v, e)] else [] }
      | .error err =>
          { value := .null, subselection := none,
            errors := [toGraphqlError err (some current_dir)],
            emitted := [], published := [] }
  | .defer ⟨_primary_path, primary_subselection, pnode⟩ deferred =>
      let registered := (deferred.map (fun dn => dn.depends)).flatten
      match pnode with
      | some node =>
          let r := execNode { P with deferred_fetches := registered }
            current_dir parent_value node
          let value := deepMerge parent_value r.value
          let chunks := execDeferredList P parent_value value r.published deferred
          { value := value, subselection := primary_subselection,
            errors := r.errors, emitted := r.emitted ++ chunks, published := [] }
      | none =>
          let chunks := execDeferredList P parent_value parent_value [] deferred
          { value := parent_value, subselection := primary_subselection,
            errors := [], emitted := chunks, published := [] }
  | .condition cond if_clause else_clause =>
      match (findField P.vars cond).getD (.bool true) with
      | .bool true =>
          match if_clause with
          | some node =>
              let r := execNode P current_dir parent_value node
              { value := deepMerge .null r.value, subselection := r.subselection,
                errors := r.errors, emitted := r.emitted, published := r.published }
          | none =>
              { value := .null, subselection := none, errors := [],
                emitted := [], published := [] }
      | _ =>
          match else_clause with
          | some node =>
              let r := execNode P current_dir parent_value node
              { value := deepMerge .null r.value, subselection := r.subselection,
                errors := r.errors, emitted := r.emitted, published := r.published }
          | none =>
              { value := .null, subselection := none, errors := [],
                emitted := [], published := [] }

/-- The `Sequence` loop (execution.rs 107-121): thread the accumulated value
as each child's parent, `deep_merge` the child's value immediately after it
completes, extend the errors, and overwrite the subselection. -/
def execSeq (P : ExecParams) (current_dir : Path) :
    List PlanNode → Value → Option String → ExecResult
  | [], value, subselection =>
      { value := value, subselection := subselection, errors := [],
        emitted := [], published := [] }
  | node :: rest, value, _subselection =>
      let r := execNode P current_dir value node
      let k := execSeq P current_dir rest (deepMerge value r.value) r.subselection
      { value := k.value, subselection := k.subselection,
        errors := r.errors ++ k.errors, emitted := r.emitted ++ k.emitted,
        published := r.published ++ k.published }

/-- The `Parallel` loop (execution.rs 122-149): every child runs with the
unchanged `parent_value`; results are merged into an accumulator that starts
from `Value::default()`; child subselections are discarded. -/
def execPar (P : ExecParams) (current_dir : Path) (parent_value : Value) :
    List PlanNode → Value → ExecResult
  | [], value =>
      { value := value, subselection := none, errors := [],
        emitted := [], published := [] }
  | node :: rest, value =>
      let r := execNode P current_dir parent_value node
      let k := execPar P current_dir parent_value rest (deepMerge value r.value)
      { value := k.value, subselection := none,
        errors := r.errors ++ k.errors, emitted := r.emitted ++ k.emitted,
        published := r.published ++ k.published }

/-- The deferred branches of one `Defer` node, in declaration order. -/
def execDeferredList (P : ExecParams) (parent_value primary_value : Value)
    (published : List (String × Value × List Error)) :
    List (DeferredNodeF PlanNode) → List Response
  | [] => []
  | dn :: rest =>
      execDeferredOne P parent_value primary_value published dn
        ++ execDeferredList P parent_value primary_value published rest

/-- `DeferredNode::execute` (execution.rs 327-470).  With an empty `depends`
list the branch first receives the primary value and merges it into the
cloned parent; otherwise it merges the broadcast messages of its depended-on
fetches, runs the inner plan (from the empty path, with a fresh empty
deferred-fetch registry), and only then merges the primary value into the
result.  It sends exactly one `Response` and disconnects its sender; the
response carries the declared path and label, and the declared subselection
or, when none was declared, the inner plan's. -/
def execDeferredOne (P : ExecParams) (parent_value primary_value : Value)
    (published : List (String × Value × List Error)) :
    DeferredNodeF PlanNode → List Response
  | ⟨depends, dpath, dsubselection, dlabel, dnode⟩ =>
      let is_depends_empty := depends.isEmpty
      let start :=
        if is_depends_empty then (deepMerge parent_value primary_value, ([] : List Error))
        else mergeReceived parent_value published depends
      match dnode with
      | some node =>
          let r := execNode { P with deferred_fetches := [] } [] start.1 node
          let v := if is_depends_empty then r.value else deepMerge r.value primary_value
          r.emitted ++
            [{ data := v, errors := r.errors, path := some dpath, label := dlabel,
               subselection := dsubselection.or r.subselection, has_next := none }]
      | none =>
          let v := if is_depends_empty then deepMerge start.1 .null
                   else deepMerge start.1 primary_value
          [{ data := v, errors := start.2, path := some dpath, label := dlabel,
             subselection := dsubselection, has_next := none }]

end

/-- `QueryPlan::execute` (execution.rs 31-76): run the root node from the
empty path with an empty parent value and an empty deferred-fetch registry;
build the primary `Response` from the returned triple (no path, no label,
no `has_next`). -/
def executePlan (vars : List (String × Value))
    (fetchResult : FetchNode → Path → Value → FetchOutcome)
    (root : PlanNode) : Response × List Response :=
  let r := execNode
    { vars := vars, fetchResult := fetchResult, deferred_fetches := [] }
    [] .null root
  ({ data := r.value, errors := r.errors, subselection := r.subselection },
   r.emitted)

/-- The stream of `Response` chunks of one plan execution: the primary chunk
is always the first `Response` emitted, followed by the deferred chunks. -/
def responseStream (vars : List (String × Value))
    (fetchResult : FetchNode → Path → Value → FetchOutcome)
    (root : PlanNode) : List Response :=
  (executePlan vars fetchResult root).1 ::
    (executePlan vars fetchResult root).2

mutual

/-- Number of `DeferredNode`s declared in a plan tree (counting the deferred
nodes of every `Defer`, including those nested in primaries, deferred inner
plans, and both `Condition` branches). -/
def countDeferred : PlanNode → Nat
  | .sequence nodes => countDeferredList nodes
  | .parallel nodes => countDeferredList nodes
  | .flatten _ node => countDeferred node
  | .fetch _ => 0
  | .defer ⟨_, _, pnode⟩ deferred =>
      countDeferredOpt pnode + countDeferredDefs deferred
  | .condition _ if_clause else_clause =>
      countDeferredOpt if_clause + countDeferredOpt else_clause

def countDeferredOpt : Option PlanNode → Nat
  | none => 0
  | some node => countDeferred node

def countDeferredList : List PlanNode → Nat
  | [] => 0
  | node :: rest => countDeferred node + countDeferredList rest

def countDeferredDefs : List (DeferredNodeF PlanNode) → Nat
  | [] => 0
  | ⟨_, _, _, _, dnode⟩ :: rest =>
      1 + countDeferredOpt dnode + countDeferredDefs rest

end

mutual

/-- No deferred node sits inside a `Condition` branch: every `Condition`
node in the plan tree has branches that declare zero deferred nodes
(`Condition` nodes themselves are allowed anywhere). -/
def conditionsDeferFree : PlanNode → Bool
  | .sequence nodes => conditionsDeferFreeList nodes
  | .parallel nodes => conditionsDeferFreeList nodes
  | .flatten _ node => conditionsDeferFree node
  | .fetch _ => true
  | .defer ⟨_, _, pnode⟩ deferred =>
      conditionsDeferFreeOpt pnode && conditionsDeferFreeDefs deferred
  | .condition _ if_clause else_clause =>
      (countDeferredOpt if_clause == 0) && (countDeferredOpt else_clause == 0)

def conditionsDeferFreeOpt : Option PlanNode → Bool
  | none => true
  | some node => conditionsDeferFree node

def conditionsDeferFreeList : List PlanNode → Bool
  | [] => true
  | node :: rest => conditionsDeferFree node && conditionsDeferFreeList rest

def conditionsDeferFreeDefs : List (DeferredNodeF PlanNode) → Bool
  | [] => true
  | ⟨_, _, _, _, dnode⟩ :: rest =>
      conditionsDeferFreeOpt dnode && conditionsDeferFreeDefs rest

end

mutual

/-- The declared paths of all `DeferredNode`s in a plan tree. -/
def deferredPaths : PlanNode → List Path
  | .sequence nodes => deferredPathsList nodes
  | .parallel nodes => deferredPathsList nodes
  | .flatten _ node => deferredPaths node
  | .fetch _ => []
  | .defer ⟨_, _, pnode⟩ deferred =>
      deferredPathsOpt pnode ++ deferredPathsDefs deferred
  | .condition _ if_clause else_clause =>
      deferredPathsOpt if_clause ++ deferredPathsOpt else_clause

def deferredPathsOpt : Option PlanNode → List Path
  | none => []
  | some node => deferredPaths node

def deferredPathsList : List PlanNode → List Path
  | [] => []
  | node :: rest => deferredPaths node ++ deferredPathsList rest

def deferredPathsDefs : List (DeferredNodeF PlanNode) → List Path
  | [] => []
  | ⟨_, dpath, _, _, dnode⟩ :: rest =>
      dpath :: (deferredPathsOpt dnode ++ deferredPathsDefs rest)

end

/-- The `Sequence` semantics as the specification words it (C1): "start
`value = parent_value.clone()`; for each child in order, execute with the
current `value` as parent, then `value.deep_merge(child.value)`; accumulate
errors" — a second, spec-side definition to be compared with the source-side
`execSeq`. -/
def sequenceSpec (P : ExecParams) (current_dir : Path) :
    List PlanNode → Value → Value × List Error
  | [], value => (value, [])
  | node :: rest, value =>
      let r := execNode P current_dir value node
      let k := sequenceSpec P current_dir rest (deepMerge value r.value)
      (k.1, r.errors ++ k.2)

/-- `services/mod.rs` line 48: the multipart `@defer` content type. -/
def MULTIPART_DEFER_CONTENT_TYPE : String :=
  "multipart/mixed;boundary=\"graphql\";deferSpec=20220824"

/-- `services/mod.rs` line 46. -/
def MULTIPART_DEFER_SPEC_PARAMETER : String := "deferSpec"

/-- `services/mod.rs` line 47. -/
def MULTIPART_DEFER_SPEC_VALUE : String := "20220824"

/-- Configuration payloads are opaque to the event flow (§6: "the core
consumes a validated configuration value"); modelled as strings. -/
abbrev Configuration := String

/-- The supergraph SDL, "provided to the core as a string" (§6). -/
abbrev Sdl := String

/-- The events the lifecycle state machine consumes (lib.rs 433-450). -/
inductive Event where
  | updateConfiguration (config : Configuration)
  | noMoreConfiguration
  | updateSchema (sdl : Sdl)
  | noMoreSchema
  | shutdown
deriving DecidableEq

/-- `SchemaKind` (lib.rs 75-106), with filesystem effects modelled by their
results: `fileExists` for `path.exists()`, `readResult` for
`read_schema(&path)` (`none` on a read failure), and `watchReads` for the
re-read performed at every file-watch notification (`files::watch` is not in
the source slice; its notifications are modelled as the list of read
results).  The unimplemented `Registry` variant (`todo!()`) is omitted. -/
inductive SchemaKindM where
  | inst (schema : Sdl)
  | stream (schemas : List Sdl)
  | file (fileExists : Bool) (readResult : Option Sdl) (watch : Bool)
      (watchReads : List (Option Sdl))

/-- `SchemaKind::into_stream` (lib.rs 114-158): each branch produces its
update events (an empty stream when the file is missing or unreadable) and
is then chained with the terminal `NoMoreSchema` marker. -/
def schemaIntoStream : SchemaKindM → List Event
  | .inst s => [.updateSchema s] ++ [.noMoreSchema]
  | .stream ss => ss.map .updateSchema ++ [.noMoreSchema]
  | .file fileExists readResult watch watchReads =>
      (if fileExists then
        match readResult with
        | some s =>
            if watch then (watchReads.filterMap id).map .updateSchema
            else [.updateSchema s]
        | none => []
      else []) ++ [.noMoreSchema]

/-- `ConfigurationKind` (lib.rs 165-188), modelled like `SchemaKindM`. -/
inductive ConfigurationKindM where
  | inst (config : Configuration)
  | stream (configs : List Configuration)
  | file (fileExists : Bool) (readResult : Option Configuration) (watch : Bool)
      (watchReads : List (Option Configuration))

/-- `ConfigurationKind::into_stream` (lib.rs 192-249): like the schema
stream; the tracing-subscriber `map` step rewrites each `UpdateConfiguration`
payload in place (modelled as the identity) and the result is chained with
the terminal `NoMoreConfiguration` marker. -/
def configurationIntoStream : ConfigurationKindM → List Event
  | .inst c => [.updateConfiguration c] ++ [.noMoreConfiguration]
  | .stream cs => cs.map .updateConfiguration ++ [.noMoreConfiguration]
  | .file fileExists readResult watch watchReads =>
      (if fileExists then
        match readResult with
        | some c =>
            if watch then (watchReads.filterMap id).map .updateConfiguration
            else [.updateConfiguration c]
        | none => []
      else []) ++ [.noMoreConfiguration]

/-- `ShutdownKind::into_stream` (lib.rs 283-299): `None` is a pending stream
that never yields (it contributes no events to a finite trace); `Custom` and
`CtrlC` yield one `Shutdown` when the future resolves. -/
inductive ShutdownKindM where
  | noHook
  | custom
  | ctrlC

def shutdownIntoStream : ShutdownKindM → List Event
  | .noHook => []
  | .custom => [.shutdown]
  | .ctrlC => [.shutdown]

/-- `ApolloRouter::generate_event_stream` (lib.rs 585-601).  `select_all`
interleaves the four source streams in an order determined by the
scheduler; the function is modelled over any finite interleaving `merged` of
their events: `take_while(|msg| !matches!(msg, Shutdown))` followed by
`chain([Shutdown])`. -/
def generateEventStream (merged : List Event) : List Event :=
  merged.takeWhile (fun e => !(decide (e = .shutdown))) ++ [.shutdown]

/-- One list interleaves two others (the order within each source is kept,
sources are mixed arbitrarily): the merge discipline of `select_all`. -/
inductive Interleaving : List Event → List Event → List Event → Prop
  | nil : Interleaving [] [] []
  | left {x xs ys zs} : Interleaving xs ys zs →
      Interleaving (x :: xs) ys (x :: zs)
  | right {y xs ys zs} : Interleaving xs ys zs →
      Interleaving xs (y :: ys) (y :: zs)

/-- Well-formed JSON values: object field lists bind each key at most once,
recursively (planner outputs and merge results in scope for C2). -/
inductive WfV : Value → Prop
  | null : WfV .null
  | bool (b : Bool) : WfV (.bool b)
  | num (n : Int) : WfV (.num n)
  | str (s : String) : WfV (.str s)
  | arr {xs : List Value} : (∀ x ∈ xs, WfV x) → WfV (.arr xs)
  | obj {fs : List (String × Value)} : (fs.map Prod.fst).Nodup →
      (∀ p ∈ fs, WfV p.2) → WfV (.obj fs)

/-- Two result values write disjoint leaf paths (§8 property 1): both are
objects, or both are arrays, and wherever both bind the same key or index the
sub-values again write disjoint paths — so no leaf path is written by both. -/
inductive DisjointW : Value → Value → Prop
  | objs {a b : List (String × Value)} :
      (∀ k va vb, findField a k = some va → findField b k = some vb →
        DisjointW va vb) →
      DisjointW (.obj a) (.obj b)
  | arrs {a b : List Value} :
      (∀ p ∈ a.zip b, DisjointW p.1 p.2) →
      DisjointW (.arr a) (.arr b)

/-- Values equal up to object key order at every level: identical scalars,
pointwise-equivalent arrays, and objects whose key lists are permutations
binding equivalent values.  This is equality of the response value trees as
unordered JSON. -/
inductive ValEquiv : Value → Value → Prop
  | null : ValEquiv .null .null
  | bool (b : Bool) : ValEquiv (.bool b) (.bool b)
  | num (n : Int) : ValEquiv (.num n) (.num n)
  | str (s : String) : ValEquiv (.str s) (.str s)
  | arr {xs ys : List Value} (hlen : xs.length = ys.length)
      (h : ∀ (i : Nat) (hi : i < xs.length),
        ValEquiv (xs.get ⟨i, hi⟩) (ys.get ⟨i, hlen ▸ hi⟩)) :
      ValEquiv (.arr xs) (.arr ys)
  | obj {fs gs : List (String × Value)}
      (hkeys : (fs.map Prod.fst).Perm (gs.map Prod.fst))
      (h : ∀ k v w, findField fs k = some v → findField gs k = some w →
        ValEquiv v w) :
      ValEquiv (.obj fs) (.obj gs)

theorem deepMerge_obj (a b : List (String × Value)) :
    deepMerge (.obj a) (.obj b) =
      .obj ((a.map (fun p =>
          (p.1, match findField b p.1 with
            | some w => deepMerge p.2 w
            | none => p.2)))
        ++ b.filter (fun q => (findField a q.1).isNone)) := by
  rw [deepMerge]
  congr 1
  congr 1
  exact List.attach_map_val a (fun p => (p.1,
    match findField b p.1 with
    | some w => deepMerge p.2 w
    | none => p.2))

theorem deepMerge_arr (a b : List Value) :
    deepMerge (.arr a) (.arr b) =
      .arr (((a.zip b).map (fun p => deepMerge p.1 p.2))
        ++ a.drop b.length ++ b.drop a.length) := by
  rw [deepMerge]
  congr 1
  congr 1
  congr 1
  exact List.attach_map_val (a.zip b) (fun p => deepMerge p.1 p.2)

theorem deepMerge_null_right (v : Value) : deepMerge v .null = v := by
  cases v <;> simp [deepMerge]

theorem deepMerge_null_left (v : Value) : deepMerge .null v = v := by
  cases v <;> simp [deepMerge]

/-- C9 counterexample: the content-type constant in `services/mod.rs` is not
the spaced string the claim states. -/
theorem c9_content_type_counterexample :
    MULTIPART_DEFER_CONTENT_TYPE ≠
      "multipart/mixed; boundary=\"graphql\"; deferSpec=20220824" := by
  decide

/-- C9 (amended): the content type used for multipart streaming of deferred
results is exactly `multipart/mixed;boundary="graphql";deferSpec=20220824`,
with no space after the semicolons. -/
theorem c9_content_type : MULTIPART_DEFER_CONTENT_TYPE =
    "multipart/mixed;boundary=\"graphql\";deferSpec=20220824" := rfl

/-- C8: for every finite interleaving of the shutdown, configuration and
schema sources, the merged stream of `generate_event_stream` ends with
exactly one `Shutdown`, emits nothing after its first `Shutdown`, and every
configuration sub-stream ends with `NoMoreConfiguration` and every schema
sub-stream with `NoMoreSchema`, including when the underlying file is
missing (`fileExists = false`) or unreadable (`readResult = none`). -/
theorem c8_event_stream_terminal :
    ∀ merged : List Event,
      (generateEventStream merged).getLast? = some .shutdown ∧
      (generateEventStream merged).count .shutdown = 1 ∧
      (∀ i : Nat, (generateEventStream merged)[i]? = some .shutdown →
        i + 1 = (generateEventStream merged).length) ∧
      (∀ ck : ConfigurationKindM,
        (configurationIntoStream ck).getLast? = some .noMoreConfiguration) ∧
      (∀ sk : SchemaKindM,
        (schemaIntoStream sk).getLast? = some .noMoreSchema) := by
  intro merged
  have hmem : ∀ e ∈ merged.takeWhile (fun e => !(decide (e = Event.shutdown))),
      e ≠ Event.shutdown := by
    intro e he
    have := List.mem_takeWhile_imp he
    simpa using this
  refine ⟨?_, ?_, ?_, ?_, ?_⟩
  · unfold generateEventStream
    simp
  · unfold generateEventStream
    rw [List.count_append]
    have h0 : (merged.takeWhile (fun e => !(decide (e = Event.shutdown)))).count
        Event.shutdown = 0 := by
      rw [List.count_eq_zero]
      intro hc
      exact hmem _ hc rfl
    simp [h0]
  · intro i hi
    unfold generateEventStream at hi ⊢
    rcases Nat.lt_or_ge i
        (merged.takeWhile (fun e => !(decide (e = Event.shutdown)))).length with hlt | hge
    · rw [List.getElem?_append, if_pos hlt] at hi
      exact absurd (List.getElem?_mem hi) (by
        intro hc
        exact hmem _ hc rfl)
    · rw [List.getElem?_append, if_neg (Nat.not_lt.mpr hge)] at hi
      simp only [List.length_append, List.length_cons, List.length_nil]
      have : i - (merged.takeWhile (fun e => !(decide (e = Event.shutdown)))).length = 0 := by
        by_contra hne
        have h1 : 1 ≤ i - _ := Nat.one_le_iff_ne_zero.mpr hne
        simp [List.getElem?_cons, List.getElem?_nil] at hi
        omega
      omega
  · intro ck
    cases ck <;> simp [configurationIntoStream]
  · intro sk
    cases sk <;> simp [schemaIntoStream]

theorem execSeq_eq_sequenceSpec (P : ExecParams) (dir : Path) :
    ∀ (nodes : List PlanNode) (parent : Value) (s0 : Option String),
      (execSeq P dir nodes parent s0).value = (sequenceSpec P dir nodes parent).1 ∧
      (execSeq P dir nodes parent s0).errors = (sequenceSpec P dir nodes parent).2
  | [], parent, s0 => by rw [execSeq, sequenceSpec]; exact ⟨rfl, rfl⟩
  | node :: rest, parent, s0 => by
      rw [execSeq, sequenceSpec]
      have ih := execSeq_eq_sequenceSpec P dir rest
        (deepMerge parent (execNode P dir parent node).value)
        (execNode P dir parent node).subselection
      exact ⟨ih.1, by simp [ih.2]⟩

/-- C1: a `Sequence` node starts from a clone of `parent_value`, executes the
children in declaration order with the accumulated value as each child's
parent, deep-merges each child's value into the accumulator immediately after
that child completes, and returns the children's errors concatenated in
declaration order — i.e. the source-side `execSeq` loop computes exactly the
spec-side `sequenceSpec` fold. -/
theorem c1_sequence_exec (P : ExecParams) (dir : Path) (parent : Value)
    (nodes : List PlanNode) :
    (execNode P dir parent (.sequence nodes)).value =
      (sequenceSpec P dir nodes parent).1 ∧
    (execNode P dir parent (.sequence nodes)).errors =
      (sequenceSpec P dir nodes parent).2 := by
  rw [execNode]
  exact execSeq_eq_sequenceSpec P dir nodes parent none

/-- C10: a `Parallel` node returns `none` as its subselection regardless of
what subselections its children produce; a child subselection can never reach
the caller through a `Parallel` node. -/
theorem c10_parallel_discards_subselection (P : ExecParams) (dir : Path)
    (parent : Value) (nodes : List PlanNode) :
    (execNode P dir parent (.parallel nodes)).subselection = none := by
  rw [execNode]
  cases nodes with
  | nil => rw [execPar]
  | cons n rest => rw [execPar]

/-- C7 counterexample: in `Sequence [Defer (primary subselection "s"), Fetch]`
the first child returns subselection `"s"`, the second child returns no
subselection, and the sequence returns `none`: the later child without a
subselection erases the earlier one, so the last non-empty subselection does
not win. -/
theorem c7_sequence_subselection_counterexample :
    (execNode ⟨[], fun _ _ _ => .ok (.null, []), []⟩ [] .null
        (.sequence [.defer ⟨none, some "s", none⟩ [], .fetch ⟨"A", "fa"⟩])).subselection
      ≠ some "s" ∧
    (execNode ⟨[], fun _ _ _ => .ok (.null, []), []⟩ [] .null
        (.defer ⟨none, some "s", none⟩ [])).subselection = some "s" ∧
    (execNode ⟨[], fun _ _ _ => .ok (.null, []), []⟩ []
        (deepMerge .null (execNode ⟨[], fun _ _ _ => .ok (.null, []), []⟩ [] .null
          (.defer ⟨none, some "s", none⟩ [])).value)
        (.fetch ⟨"A", "fa"⟩)).subselection = none := by
  refine ⟨?_, ?_, ?_⟩
  · simp [execNode, execSeq, execDeferredList]
  · simp [execNode]
  · simp [execNode]

/-- C7 (amended): in a `Sequence`, the final child's subselection wins
unconditionally: the sequence's subselection is the one returned by the last
child (executed against the value accumulated over the earlier children), so
a later child that returns no subselection does erase a subselection produced
by an earlier child. -/
theorem c7_sequence_last_subselection (P : ExecParams) (dir : Path)
    (parent : Value) (nodes : List PlanNode) (n : PlanNode) :
    (execNode P dir parent (.sequence (nodes ++ [n]))).subselection =
      (execNode P dir (sequenceSpec P dir nodes parent).1 n).subselection := by
  rw [execNode]
  suffices h : ∀ (nodes : List PlanNode) (parent : Value) (s0 : Option String),
      (execSeq P dir (nodes ++ [n]) parent s0).subselection =
        (execNode P dir (sequenceSpec P dir nodes parent).1 n).subselection from
    h nodes parent none
  intro nodes
  induction nodes with
  | nil =>
      intro parent s0
      rw [sequenceSpec]
      simp only [List.nil_append]
      rw [execSeq, execSeq]
  | cons m rest ih =>
      intro parent s0
      rw [sequenceSpec]
      simp only [List.cons_append]
      rw [execSeq]
      exact ih (deepMerge parent (execNode P dir parent m).value)
        (execNode P dir parent m).subselection

/-- C3: a transport-layer fetch failure yields exactly one GraphQL error
whose path is `current_dir` and an empty (`null`) value, and execution
continues: an enclosing `Sequence` or `Parallel` still executes the remaining
children (their errors and values appear after the fetch error), and the plan
still produces a `Response` stream. -/
theorem c3_fetch_transport_error (P : ExecParams) (dir : Path) (parent : Value)
    (f : FetchNode) (e : FetchError) (n2 : PlanNode)
    (h : P.fetchResult f dir parent = .error e) :
    execNode P dir parent (.fetch f) =
      { value := .null, subselection := none,
        errors := [toGraphqlError e (some dir)], emitted := [], published := [] } ∧
    (execNode P dir parent (.sequence [.fetch f, n2])).errors =
      toGraphqlError e (some dir) :: (execNode P dir parent n2).errors ∧
    (execNode P dir parent (.sequence [.fetch f, n2])).value =
      deepMerge parent (execNode P dir parent n2).value ∧
    (execNode P dir parent (.parallel [.fetch f, n2])).errors =
      toGraphqlError e (some dir) :: (execNode P dir parent n2).errors ∧
    ∀ vars oracle root, responseStream vars oracle root ≠ [] := by
  have hfetch : execNode P dir parent (.fetch f) =
      { value := .null, subselection := none,
        errors := [toGraphqlError e (some dir)], emitted := [], published := [] } := by
    rw [execNode, h]
  refine ⟨hfetch, ?_, ?_, ?_, ?_⟩
  · rw [execNode, execSeq, execSeq, execSeq, hfetch]
    simp [deepMerge_null_right]
  · rw [execNode, execSeq, execSeq, execSeq, hfetch]
    simp [deepMerge_null_right]
  · rw [execNode, execPar, execPar, execPar, hfetch]
    simp [deepMerge_null_right, deepMerge_null_left]
  · intro vars oracle root
    simp [responseStream]

/-- C6: a `Condition` node evaluates its condition variable against the
request variables, treating an absent variable as `true`; when the value is
`true` and `if_clause` is present it executes `if_clause`, when it is `false`
and `else_clause` is present it executes `else_clause`, and in the remaining
cases (`true` with no `if_clause`, `false` with no `else_clause`) it returns
the empty value with no subselection and no errors. -/
theorem c6_condition (P : ExecParams) (dir : Path) (parent : Value)
    (c : String) (ic ec : Option PlanNode) (n : PlanNode) :
    ((findField P.vars c = some (.bool true) ∨ findField P.vars c = none) →
      ic = some n →
      execNode P dir parent (.condition c ic ec) =
        { value := deepMerge .null (execNode P dir parent n).value,
          subselection := (execNode P dir parent n).subselection,
          errors := (execNode P dir parent n).errors,
          emitted := (execNode P dir parent n).emitted,
          published := (execNode P dir parent n).published }) ∧
    (findField P.vars c = some (.bool false) → ec = some n →
      execNode P dir parent (.condition c ic ec) =
        { value := deepMerge .null (execNode P dir parent n).value,
          subselection := (execNode P dir parent n).subselection,
          errors := (execNode P dir parent n).errors,
          emitted := (execNode P dir parent n).emitted,
          published := (execNode P dir parent n).published }) ∧
    ((findField P.vars c = some (.bool true) ∨ findField P.vars c = none) →
      ic = none →
      execNode P dir parent (.condition c ic ec) =
        { value := .null, subselection := none, errors := [],
          emitted := [], published := [] }) ∧
    (findField P.vars c = some (.bool false) → ec = none →
      execNode P dir parent (.condition c ic ec) =
        { value := .null, subselection := none, errors := [],
          emitted := [], published := [] }) := by
  refine ⟨?_, ?_, ?_, ?_⟩
  · rintro (hv | hv) rfl <;>
      cases ec <;> simp only [execNode, hv, Option.getD_some, Option.getD_none]
  · rintro hv rfl
    cases ic <;> simp only [execNode, hv, Option.getD_some]
  · rintro (hv | hv) rfl <;>
      cases ec <;> simp only [execNode, hv, Option.getD_some, Option.getD_none]
  · rintro hv rfl
    cases ic <;> simp only [execNode, hv, Option.getD_some]

mutual

theorem emittedZero_node : ∀ (n : PlanNode) (P : ExecParams) (dir : Path)
    (parent : Value), countDeferred n = 0 →
    (execNode P dir parent n).emitted = []
  | .sequence nodes, P, dir, parent, h => by
      rw [execNode]
      rw [countDeferred] at h
      exact emittedZero_seq nodes P dir parent none h
  | .parallel nodes, P, dir, parent, h => by
      rw [execNode]
      rw [countDeferred] at h
      exact emittedZero_par nodes P dir parent .null h
  | .flatten path node, P, dir, parent, h => by
      rw [execNode]
      rw [countDeferred] at h
      exact emittedZero_node node P (dir ++ path) parent h
  | .fetch f, P, dir, parent, _h => by
      rcases hr : P.fetchResult f dir parent with e | ⟨v, errs⟩ <;>
        simp [execNode, hr]
  | .defer ⟨pp, ps, pnode⟩ ds, P, dir, parent, h => by
      rw [countDeferred] at h
      have hds : ds = [] := by
        cases ds with
        | nil => rfl
        | cons d rest =>
            obtain ⟨dep, dp, dsb, dl, dn⟩ := d
            rw [countDeferredDefs] at h
            omega
      subst hds
      cases pnode with
      | some node =>
          rw [execNode]
          simp only [execDeferredList, List.append_nil]
          exact emittedZero_node node _ dir parent (by
            rw [countDeferredOpt, countDeferredDefs] at h
            omega)
      | none =>
          rw [execNode]
          rw [execDeferredList]
  | .condition c ic ec, P, dir, parent, h => by
      rw [countDeferred] at h
      have h1 : countDeferredOpt ic = 0 := by omega
      have h2 : countDeferredOpt ec = 0 := by omega
      cases ic with
      | none =>
          cases ec with
          | none =>
              rw [execNode]
              split <;> rfl
          | some e =>
              rw [execNode]
              split
              · rfl
              · exact emittedZero_node e P dir parent
                  (by rwa [countDeferredOpt] at h2)
      | some i =>
          cases ec with
          | none =>
              rw [execNode]
              split
              · exact emittedZero_node i P dir parent
                  (by rwa [countDeferredOpt] at h1)
              · rfl
          | some e =>
              rw [execNode]
              split
              · exact emittedZero_node i P dir parent
                  (by rwa [countDeferredOpt] at h1)
              · exact emittedZero_node e P dir parent
                  (by rwa [countDeferredOpt] at h2)

theorem emittedZero_seq : ∀ (nodes : List PlanNode) (P : ExecParams)
    (dir : Path) (v : Value) (s : Option String), countDeferredList nodes = 0 →
    (execSeq P dir nodes v s).emitted = []
  | [], P, dir, v, s, _h => by rw [execSeq]
  | node :: rest, P, dir, v, s, h => by
      rw [execSeq]
      rw [countDeferredList] at h
      have h1 := emittedZero_node node P dir v (by omega)
      have h2 := emittedZero_seq rest P dir
        (deepMerge v (execNode P dir v node).value)
        (execNode P dir v node).subselection (by omega)
      simp only [h1, h2, List.append_nil]

theorem emittedZero_par : ∀ (nodes : List PlanNode) (P : ExecParams)
    (dir : Path) (parent : Value) (acc : Value), countDeferredList nodes = 0 →
    (execPar P dir parent nodes acc).emitted = []
  | [], P, dir, parent, acc, _h => by rw [execPar]
  | node :: rest, P, dir, parent, acc, h => by
      rw [execPar]
      rw [countDeferredList] at h
      have h1 := emittedZero_node node P dir parent (by omega)
      have h2 := emittedZero_par rest P dir parent
        (deepMerge acc (execNode P dir parent node).value) (by omega)
      simp only [h1, h2, List.append_nil]

end

mutual

theorem emittedLen_node : ∀ (n : PlanNode) (P : ExecParams) (dir : Path)
    (parent : Value), conditionsDeferFree n = true →
    (execNode P dir parent n).emitted.length = countDeferred n
  | .sequence nodes, P, dir, parent, h => by
      rw [execNode, countDeferred]
      rw [conditionsDeferFree] at h
      exact emittedLen_seq nodes P dir parent none h
  | .parallel nodes, P, dir, parent, h => by
      rw [execNode, countDeferred]
      rw [conditionsDeferFree] at h
      exact emittedLen_par nodes P dir parent .null h
  | .flatten path node, P, dir, parent, h => by
      rw [execNode, countDeferred]
      rw [conditionsDeferFree] at h
      exact emittedLen_node node P (dir ++ path) parent h
  | .fetch f, P, dir, parent, _h => by
      rcases hr : P.fetchResult f dir parent with e | ⟨v, errs⟩ <;>
        simp [execNode, hr, countDeferred]
  | .defer ⟨pp, ps, some node⟩ ds, P, dir, parent, h => by
      rw [execNode, countDeferred]
      rw [conditionsDeferFree] at h
      simp only [Bool.and_eq_true] at h
      have h1 := emittedLen_node node
        { P with deferred_fetches := (ds.map (fun dn => dn.depends)).flatten }
        dir parent (by
          rw [conditionsDeferFreeOpt] at h
          exact h.1)
      have h2 := emittedLen_defList ds P parent
        (deepMerge parent (execNode
          { P with deferred_fetches := (ds.map (fun dn => dn.depends)).flatten }
          dir parent node).value)
        (execNode
          { P with deferred_fetches := (ds.map (fun dn => dn.depends)).flatten }
          dir parent node).published h.2
      simp only [List.length_append, countDeferredOpt]
      omega
  | .defer ⟨pp, ps, none⟩ ds, P, dir, parent, h => by
      rw [execNode, countDeferred]
      rw [conditionsDeferFree] at h
      simp only [Bool.and_eq_true] at h
      have h2 := emittedLen_defList ds P parent parent [] h.2
      simp only [countDeferredOpt]
      omega
  | .condition c ic ec, P, dir, parent, h => by
      rw [conditionsDeferFree] at h
      simp only [Bool.and_eq_true, beq_iff_eq] at h
      rw [countDeferred, h.1, h.2]
      cases ic with
      | none =>
          cases ec with
          | none =>
              rw [execNode]
              split <;> rfl
          | some e =>
              rw [execNode]
              split
              · rfl
              · have h0 := emittedZero_node e P dir parent
                  (by rw [countDeferredOpt] at h; exact h.2)
                simp only [h0]
                rfl
      | some i =>
          cases ec with
          | none =>
              rw [execNode]
              split
              · have h0 := emittedZero_node i P dir parent
                  (by rw [countDeferredOpt] at h; exact h.1)
                simp only [h0]
                rfl
              · rfl
          | some e =>
              rw [execNode]
              split
              · have h0 := emittedZero_node i P dir parent
                  (by rw [countDeferredOpt] at h; exact h.1)
                simp only [h0]
                rfl
              · have h0 := emittedZero_node e P dir parent
                  (by rw [countDeferredOpt] at h; exact h.2)
                simp only [h0]
                rfl

theorem emittedLen_seq : ∀ (nodes : List PlanNode) (P : ExecParams) (dir : Path)
    (v : Value) (s : Option String), conditionsDeferFreeList nodes = true →
    (execSeq P dir nodes v s).emitted.length = countDeferredList nodes
  | [], P, dir, v, s, _h => by rw [execSeq, countDeferredList]; rfl
  | node :: rest, P, dir, v, s, h => by
      rw [execSeq, countDeferredList]
      rw [conditionsDeferFreeList] at h
      simp only [Bool.and_eq_true] at h
      have h1 := emittedLen_node node P dir v h.1
      have h2 := emittedLen_seq rest P dir
        (deepMerge v (execNode P dir v node).value)
        (execNode P dir v node).subselection h.2
      simp only [List.length_append]
      omega

theorem emittedLen_par : ∀ (nodes : List PlanNode) (P : ExecParams) (dir : Path)
    (parent : Value) (acc : Value), conditionsDeferFreeList nodes = true →
    (execPar P dir parent nodes acc).emitted.length = countDeferredList nodes
  | [], P, dir, parent, acc, _h => by rw [execPar, countDeferredList]; rfl
  | node :: rest, P, dir, parent, acc, h => by
      rw [execPar, countDeferredList]
      rw [conditionsDeferFreeList] at h
      simp only [Bool.and_eq_true] at h
      have h1 := emittedLen_node node P dir parent h.1
      have h2 := emittedLen_par rest P dir parent
        (deepMerge acc (execNode P dir parent node).value) h.2
      simp only [List.length_append]
      omega

theorem emittedLen_defList : ∀ (ds : List (DeferredNodeF PlanNode))
    (P : ExecParams) (pv prv : Value)
    (pub : List (String × Value × List Error)), conditionsDeferFreeDefs ds = true →
    (execDeferredList P pv prv pub ds).length = countDeferredDefs ds
  | [], P, pv, prv, pub, _h => by rw [execDeferredList, countDeferredDefs]; rfl
  | ⟨dep, dpath, dsub, dlabel, dnode⟩ :: rest, P, pv, prv, pub, h => by
      rw [execDeferredList, countDeferredDefs]
      rw [conditionsDeferFreeDefs] at h
      simp only [Bool.and_eq_true] at h
      have h1 := emittedLen_defOne dep dpath dsub dlabel dnode P pv prv pub h.1
      have h2 := emittedLen_defList rest P pv prv pub h.2
      simp only [List.length_append]
      omega

theorem emittedLen_defOne : ∀ (dep : List String) (dpath : Path)
    (dsub dlabel : Option String) (dnode : Option PlanNode) (P : ExecParams)
    (pv prv : Value) (pub : List (String × Value × List Error)),
    conditionsDeferFreeOpt dnode = true →
    (execDeferredOne P pv prv pub ⟨dep, dpath, dsub, dlabel, dnode⟩).length =
      1 + countDeferredOpt dnode
  | dep, dpath, dsub, dlabel, some node, P, pv, prv, pub, h => by
      rw [execDeferredOne, countDeferredOpt]
      rw [conditionsDeferFreeOpt] at h
      have h1 := emittedLen_node node { P with deferred_fetches := [] } []
        (if dep.isEmpty then (deepMerge pv prv, ([] : List Error))
          else mergeReceived pv pub dep).1 h
      simp only [List.length_append, List.length_cons, List.length_nil]
      omega
  | dep, dpath, dsub, dlabel, none, P, pv, prv, pub, _h => by
      rw [execDeferredOne, countDeferredOpt]
      rfl

end

mutual

theorem paths_node : ∀ (n : PlanNode) (P : ExecParams) (dir : Path)
    (parent : Value) (r : Response), r ∈ (execNode P dir parent n).emitted →
    r.path ∈ (deferredPaths n).map some
  | .sequence nodes, P, dir, parent, r => by
      rw [execNode, deferredPaths]
      exact paths_seq nodes P dir parent none r
  | .parallel nodes, P, dir, parent, r => by
      rw [execNode, deferredPaths]
      exact paths_par nodes P dir parent .null r
  | .flatten path node, P, dir, parent, r => by
      rw [execNode, deferredPaths]
      exact paths_node node P (dir ++ path) parent r
  | .fetch f, P, dir, parent, r => by
      rcases hr : P.fetchResult f dir parent with e | ⟨v, errs⟩ <;>
        simp [execNode, hr]
  | .defer ⟨pp, ps, some node⟩ ds, P, dir, parent, r => by
      rw [execNode, deferredPaths]
      intro hr
      simp only [List.mem_append] at hr
      rw [List.map_append]
      rcases hr with hr | hr
      · exact List.mem_append_left _
          (by
            rw [deferredPathsOpt]
            exact paths_node node _ dir parent r hr)
      · exact List.mem_append_right _ (paths_defList ds P parent _ _ r hr)
  | .defer ⟨pp, ps, none⟩ ds, P, dir, parent, r => by
      rw [execNode, deferredPaths]
      intro hr
      rw [List.map_append]
      exact List.mem_append_right _ (paths_defList ds P parent parent [] r hr)
  | .condition c (some i) (some e), P, dir, parent, r => by
      rw [execNode, deferredPaths]
      intro hr
      rw [List.map_append]
      split at hr
      · simp only [] at hr
        exact List.mem_append_left _ (by
          rw [deferredPathsOpt]
          exact paths_node i P dir parent r hr)
      · simp only [] at hr
        exact List.mem_append_right _ (by
          rw [deferredPathsOpt]
          exact paths_node e P dir parent r hr)
  | .condition c (some i) none, P, dir, parent, r => by
      rw [execNode, deferredPaths]
      intro hr
      rw [List.map_append]
      split at hr
      · simp only [] at hr
        exact List.mem_append_left _ (by
          rw [deferredPathsOpt]
          exact paths_node i P dir parent r hr)
      · exact absurd hr (by simp)
  | .condition c none (some e), P, dir, parent, r => by
      rw [execNode, deferredPaths]
      intro hr
      rw [List.map_append]
      split at hr
      · exact absurd hr (by simp)
      · simp only [] at hr
        exact List.mem_append_right _ (by
          rw [deferredPathsOpt]
          exact paths_node e P dir parent r hr)
  | .condition c none none, P, dir, parent, r => by
      rw [execNode]
      intro hr
      split at hr <;> exact absurd hr (by simp)

theorem paths_seq : ∀ (nodes : List PlanNode) (P : ExecParams) (dir : Path)
    (v : Value) (s : Option String) (r : Response),
    r ∈ (execSeq P dir nodes v s).emitted →
    r.path ∈ (deferredPathsList nodes).map some
  | [], P, dir, v, s, r => by
      rw [execSeq]
      intro hr
      exact absurd hr (by simp)
  | node :: rest, P, dir, v, s, r => by
      rw [execSeq, deferredPathsList]
      intro hr
      simp only [List.mem_append] at hr
      rw [List.map_append]
      rcases hr with hr | hr
      · exact List.mem_append_left _ (paths_node node P dir v r hr)
      · exact List.mem_append_right _ (paths_seq rest P dir _ _ r hr)

theorem paths_par : ∀ (nodes : List PlanNode) (P : ExecParams) (dir : Path)
    (parent : Value) (acc : Value) (r : Response),
    r ∈ (execPar P dir parent nodes acc).emitted →
    r.path ∈ (deferredPathsList nodes).map some
  | [], P, dir, parent, acc, r => by
      rw [execPar]
      intro hr
      exact absurd hr (by simp)
  | node :: rest, P, dir, parent, acc, r => by
      rw [execPar, deferredPathsList]
      intro hr
      simp only [List.mem_append] at hr
      rw [List.map_append]
      rcases hr with hr | hr
      · exact List.mem_append_left _ (paths_node node P dir parent r hr)
      · exact List.mem_append_right _ (paths_par rest P dir parent _ r hr)

theorem paths_defList : ∀ (ds : List (DeferredNodeF PlanNode)) (P : ExecParams)
    (pv prv : Value) (pub : List (String × Value × List Error)) (r : Response),
    r ∈ execDeferredList P pv prv pub ds →
    r.path ∈ (deferredPathsDefs ds).map some
  | [], P, pv, prv, pub, r => by
      rw [execDeferredList]
      intro hr
      exact absurd hr (by simp)
  | ⟨dep, dpath, dsub, dlabel, dnode⟩ :: rest, P, pv, prv, pub, r => by
      rw [execDeferredList, deferredPathsDefs]
      intro hr
      simp only [List.mem_append] at hr
      simp only [List.map_cons, List.map_append]
      rcases hr with hr | hr
      · have := paths_defOne dep dpath dsub dlabel dnode P pv prv pub r hr
        simp only [List.map_cons, List.map_append, List.mem_cons,
          List.mem_append] at this ⊢
        tauto
      · have := paths_defList rest P pv prv pub r hr
        simp only [List.mem_cons, List.mem_append]
        tauto

theorem paths_defOne : ∀ (dep : List String) (dpath : Path)
    (dsub dlabel : Option String) (dnode : Option PlanNode) (P : ExecParams)
    (pv prv : Value) (pub : List (String × Value × List Error)) (r : Response),
    r ∈ execDeferredOne P pv prv pub ⟨dep, dpath, dsub, dlabel, dnode⟩ →
    r.path ∈ (dpath :: deferredPathsOpt dnode).map some
  | dep, dpath, dsub, dlabel, some node, P, pv, prv, pub, r => by
      rw [execDeferredOne]
      intro hr
      simp only [List.mem_append, List.mem_singleton] at hr
      simp only [List.map_cons, List.mem_cons]
      rcases hr with hr | hr
      · right
        rw [deferredPathsOpt]
        exact paths_node node _ [] _ r hr
      · left
        rw [hr]
  | dep, dpath, dsub, dlabel, none, P, pv, prv, pub, r => by
      rw [execDeferredOne]
      intro hr
      simp only [List.mem_singleton] at hr
      simp only [List.map_cons, List.mem_cons]
      left
      rw [hr]

end

/-- C4 counterexample: (a) executing a `Defer` with one deferred node (no
depends, no inner node, declared path `["user"]`) emits exactly one deferred
chunk whose `has_next` is unset (`none`), not `true` — the send in
`DeferredNode::execute` never sets `has_next`; (b) a plan whose single
deferred node sits in the untaken branch of a `Condition` (one deferred node,
variable `c = false`) produces one chunk, not N+1 = 2: an untaken branch
never executes its deferred nodes. -/
theorem c4_chunks_counterexample :
    ((execNode ⟨[], fun _ _ _ => .ok (.null, []), []⟩ [] .null
        (.defer ⟨none, none, none⟩
          [⟨[], [.key "user"], none, none, none⟩])).emitted.map
      Response.has_next) = [none] ∧
    (responseStream [("c", Value.bool false)] (fun _ _ _ => .ok (.null, []))
        (.condition "c"
          (some (.defer ⟨none, none, none⟩
            [⟨[], [.key "u"], none, none, none⟩])) none)).length ≠
      countDeferred
        (.condition "c"
          (some (.defer ⟨none, none, none⟩
            [⟨[], [.key "u"], none, none, none⟩])) none) + 1 := by
  constructor
  · simp [execNode, execDeferredList, execDeferredOne]
  · have hlen : (responseStream [("c", Value.bool false)]
        (fun _ _ _ => .ok (.null, []))
        (.condition "c"
          (some (.defer ⟨none, none, none⟩
            [⟨[], [.key "u"], none, none, none⟩])) none)).length = 1 := by
      simp [responseStream, executePlan, execNode, findField]
    have hcount : countDeferred
        (.condition "c"
          (some (.defer ⟨none, none, none⟩
            [⟨[], [.key "u"], none, none, none⟩])) none) = 1 := by
      simp [countDeferred, countDeferredOpt, countDeferredDefs]
    rw [hlen, hcount]
    decide

/-- C4 (amended): every deferred branch sends exactly one `Response` of its
own — after the chunks of any plan nested in its inner node — carrying the
deferred node's declared path and label, the declared subselection or (only
when none was declared) the inner node's, and with `has_next` left unset;
for a plan with N deferred nodes, none of which sits inside a `Condition`
branch, the response stream has exactly N+1 chunks; the primary chunk has no
path and every deferred chunk carries some deferred node's declared path. -/
theorem c4_deferred_chunks :
    (∀ (P : ExecParams) (pv prv : Value)
        (pub : List (String × Value × List Error)) (depends : List String)
        (dpath : Path) (dsub dlabel : Option String) (dnode : Option PlanNode),
      ∃ (pre : List Response) (d : Value) (errs : List Error) (s : Option String),
        execDeferredOne P pv prv pub ⟨depends, dpath, dsub, dlabel, dnode⟩ =
          pre ++ [{ data := d, errors := errs, path := some dpath,
                    label := dlabel, subselection := dsub.or s,
                    has_next := none }]) ∧
    (∀ (vars : List (String × Value))
        (oracle : FetchNode → Path → Value → FetchOutcome) (root : PlanNode),
      conditionsDeferFree root = true →
      (responseStream vars oracle root).length = countDeferred root + 1) ∧
    (∀ (vars : List (String × Value))
        (oracle : FetchNode → Path → Value → FetchOutcome) (root : PlanNode),
      (executePlan vars oracle root).1.path = none) ∧
    (∀ (vars : List (String × Value))
        (oracle : FetchNode → Path → Value → FetchOutcome) (root : PlanNode)
        (r : Response), r ∈ (executePlan vars oracle root).2 →
      r.path ∈ (deferredPaths root).map some) := by
  refine ⟨?_, ?_, ?_, ?_⟩
  · intro P pv prv pub depends dpath dsub dlabel dnode
    cases dnode with
    | some node =>
        rw [execDeferredOne]
        exact ⟨_, _, _, _, rfl⟩
    | none =>
        cases depends with
        | nil =>
            rw [execDeferredOne]
            refine ⟨[], deepMerge (deepMerge pv prv) .null, [], none, ?_⟩
            simp
        | cons a l =>
            rw [execDeferredOne]
            refine ⟨[], deepMerge (mergeReceived pv pub (a :: l)).1 prv,
              (mergeReceived pv pub (a :: l)).2, none, ?_⟩
            simp
  · intro vars oracle root h
    have hlen := emittedLen_node root
      ⟨vars, oracle, []⟩ [] .null h
    simp [responseStream, executePlan]
    omega
  · intro vars oracle root
    rfl
  · intro vars oracle root r hr
    have hr2 : r ∈ (execNode ⟨vars, oracle, []⟩ [] .null root).emitted := by
      simpa [executePlan] using hr
    exact paths_node root ⟨vars, oracle, []⟩ [] .null r hr2

/-- C5: the deferred-branch semantics of `DeferredNode::execute`: with an
empty `depends` the primary value is merged into the parent value before the
inner plan runs; with a non-empty `depends` the branch first merges the
`(value, errors)` pairs published by the depended-on fetches, runs the inner
plan on that merged value, and only after the inner plan completes merges the
primary value into the result; in particular, a branch with `depends = [id]`
computes its chunk from the value the fetch `id` published. -/
theorem c5_deferred_gating :
    (∀ (P : ExecParams) (pv prv : Value)
        (pub : List (String × Value × List Error)) (dpath : Path)
        (dsub dlabel : Option String) (node : PlanNode),
      execDeferredOne P pv prv pub ⟨[], dpath, dsub, dlabel, some node⟩ =
        (let r := execNode { P with deferred_fetches := [] } []
            (deepMerge pv prv) node;
         r.emitted ++ [{ data := r.value, errors := r.errors,
                         path := some dpath, label := dlabel,
                         subselection := dsub.or r.subselection,
                         has_next := none }])) ∧
    (∀ (P : ExecParams) (pv prv : Value)
        (pub : List (String × Value × List Error)) (depends : List String)
        (dpath : Path) (dsub dlabel : Option String) (node : PlanNode),
      depends ≠ [] →
      execDeferredOne P pv prv pub ⟨depends, dpath, dsub, dlabel, some node⟩ =
        (let r := execNode { P with deferred_fetches := [] } []
            (mergeReceived pv pub depends).1 node;
         r.emitted ++ [{ data := deepMerge r.value prv, errors := r.errors,
                         path := some dpath, label := dlabel,
                         subselection := dsub.or r.subselection,
                         has_next := none }])) ∧
    (∀ (P : ExecParams) (pv prv : Value)
        (pub : List (String × Value × List Error)) (id : String) (v : Value)
        (e : List Error) (dpath : Path) (dsub dlabel : Option String)
        (node : PlanNode),
      lookupPublished pub id = some (v, e) →
      execDeferredOne P pv prv pub ⟨[id], dpath, dsub, dlabel, some node⟩ =
        (let r := execNode { P with deferred_fetches := [] } []
            (deepMerge pv v) node;
         r.emitted ++ [{ data := deepMerge r.value prv, errors := r.errors,
                         path := some dpath, label := dlabel,
                         subselection := dsub.or r.subselection,
                         has_next := none }])) := by
  refine ⟨?_, ?_, ?_⟩
  · intro P pv prv pub dpath dsub dlabel node
    rw [execDeferredOne]
    simp
  · intro P pv prv pub depends dpath dsub dlabel node hne
    rw [execDeferredOne]
    have hie : depends.isEmpty = false := by
      cases depends with
      | nil => exact absurd rfl hne
      | cons a l => rfl
    simp only [hie]
    rfl
  · intro P pv prv pub id v e dpath dsub dlabel node hpub
    rw [execDeferredOne]
    have hm : mergeReceived pv pub [id] = (deepMerge pv v, e) := by
      simp [mergeReceived, hpub]
    simp only [List.isEmpty_cons, hm]
    rfl

theorem c8_event_stream_terminal_witness :
    1 + 1 = (generateEventStream [Event.updateSchema "s", Event.shutdown]).length :=
  (c8_event_stream_terminal [Event.updateSchema "s", Event.shutdown]).2.2.1 1
    (by decide)

theorem c3_fetch_transport_error_witness :
    execNode ⟨[], fun _ _ _ => .error ⟨"connection refused"⟩, []⟩ [] .null
        (.fetch ⟨"A", "fa"⟩) =
      { value := .null, subselection := none,
        errors := [toGraphqlError ⟨"connection refused"⟩ (some [])],
        emitted := [], published := [] } :=
  (c3_fetch_transport_error ⟨[], fun _ _ _ => .error ⟨"connection refused"⟩, []⟩
    [] .null ⟨"A", "fa"⟩ ⟨"connection refused"⟩ (.fetch ⟨"B", "fb"⟩) rfl).1

theorem c6_condition_witness :
    execNode ⟨[("flag", Value.bool false)], fun _ _ _ => .ok (.null, []), []⟩ [] .null
        (.condition "flag" (some (.fetch ⟨"A", "fa"⟩)) (some (.fetch ⟨"B", "fb"⟩))) =
      { value := deepMerge .null
          (execNode ⟨[("flag", Value.bool false)], fun _ _ _ => .ok (.null, []), []⟩
            [] .null (.fetch ⟨"B", "fb"⟩)).value,
        subselection :=
          (execNode ⟨[("flag", Value.bool false)], fun _ _ _ => .ok (.null, []), []⟩
            [] .null (.fetch ⟨"B", "fb"⟩)).subselection,
        errors :=
          (execNode ⟨[("flag", Value.bool false)], fun _ _ _ => .ok (.null, []), []⟩
            [] .null (.fetch ⟨"B", "fb"⟩)).errors,
        emitted :=
          (execNode ⟨[("flag", Value.bool false)], fun _ _ _ => .ok (.null, []), []⟩
            [] .null (.fetch ⟨"B", "fb"⟩)).emitted,
        published :=
          (execNode ⟨[("flag", Value.bool false)], fun _ _ _ => .ok (.null, []), []⟩
            [] .null (.fetch ⟨"B", "fb"⟩)).published } :=
  (c6_condition ⟨[("flag", Value.bool false)], fun _ _ _ => .ok (.null, []), []⟩
    [] .null "flag" (some (.fetch ⟨"A", "fa"⟩)) (some (.fetch ⟨"B", "fb"⟩))
    (.fetch ⟨"B", "fb"⟩)).2.1 rfl rfl

theorem c4_deferred_chunks_witness :
    (responseStream [] (fun _ _ _ => .ok (.null, []))
        (.defer ⟨none, none, none⟩ [⟨[], [.key "u"], none, none, none⟩])).length =
      countDeferred
        (.defer ⟨none, none, none⟩ [⟨[], [.key "u"], none, none, none⟩]) + 1 :=
  c4_deferred_chunks.2.1 [] (fun _ _ _ => .ok (.null, []))
    (.defer ⟨none, none, none⟩ [⟨[], [.key "u"], none, none, none⟩])
    (by simp [conditionsDeferFree, conditionsDeferFreeOpt,
      conditionsDeferFreeDefs])

theorem c5_deferred_gating_witness :
    execDeferredOne ⟨[], fun _ _ _ => .ok (.null, []), []⟩ .null .null
        [("fa", .obj [("x", .num 1)], [])]
        ⟨["fa"], [.key "u"], none, none, some (.fetch ⟨"B", "fb"⟩)⟩ =
      (let r := execNode ⟨[], fun _ _ _ => .ok (.null, []), []⟩ []
          (deepMerge .null (.obj [("x", .num 1)])) (.fetch ⟨"B", "fb"⟩);
       r.emitted ++ [{ data := deepMerge r.value .null, errors := r.errors,
                       path := some [.key "u"], label := none,
                       subselection := Option.or none r.subselection,
                       has_next := none }]) :=
  c5_deferred_gating.2.2 ⟨[], fun _ _ _ => .ok (.null, []), []⟩ .null .null
    [("fa", .obj [("x", .num 1)], [])] "fa" (.obj [("x", .num 1)]) []
    [.key "u"] none none (.fetch ⟨"B", "fb"⟩) rfl

theorem findField_sizeOf (l : List (String × Value)) (k : String) (v : Value)
    (h : findField l k = some v) : sizeOf v < sizeOf l := by
  induction l with
  | nil => simp [findField] at h
  | cons p rest ih =>
      obtain ⟨k', v'⟩ := p
      rw [findField] at h
      split at h
      · cases h
        simp
        omega
      · have := ih h
        simp
        omega

theorem findField_eq_none (l : List (String × Value)) (k : String) :
    findField l k = none ↔ k ∉ l.map Prod.fst := by
  induction l with
  | nil => simp [findField]
  | cons p rest ih =>
      obtain ⟨k', v'⟩ := p
      rw [findField]
      split
      · next heq => simp [heq]
      · next hne =>
          rw [ih]
          simp only [List.map_cons, List.mem_cons]
          constructor
          · rintro h (hc | hc)
            · exact hne hc.symm
            · exact h hc
          · intro h hc
            exact h (Or.inr hc)

theorem findField_isSome (l : List (String × Value)) (k : String)
    (h : k ∈ l.map Prod.fst) : ∃ v, findField l k = some v := by
  cases hf : findField l k with
  | none => exact absurd ((findField_eq_none l k).mp hf) (by simpa using h)
  | some v => exact ⟨v, rfl⟩

theorem findField_append (l m : List (String × Value)) (k : String) :
    findField (l ++ m) k = (findField l k).or (findField m k) := by
  induction l with
  | nil => simp [findField]
  | cons p rest ih =>
      obtain ⟨k', v'⟩ := p
      simp only [List.cons_append]
      rw [findField, findField]
      split
      · rfl
      · exact ih

theorem findField_map (l : List (String × Value)) (g : String × Value → Value)
    (k : String) :
    findField (l.map (fun p => (p.1, g p))) k =
      (findField l k).map (fun v => g (k, v)) := by
  induction l with
  | nil => simp [findField]
  | cons p rest ih =>
      obtain ⟨k', v'⟩ := p
      simp only [List.map_cons]
      rw [findField, findField]
      split
      · next heq => subst heq; rfl
      · exact ih

theorem findField_filter (a b : List (String × Value)) (k : String) :
    findField (b.filter (fun q => (findField a q.1).isNone)) k =
      if (findField a k).isNone then findField b k else none := by
  induction b with
  | nil => simp [findField]
  | cons p rest ih =>
      obtain ⟨k', v'⟩ := p
      by_cases hkk : k' = k
      · subst hkk
        by_cases hk : (findField a k').isNone = true
        · rw [List.filter_cons_of_pos (by simpa using hk)]
          rw [findField, if_pos rfl, if_pos hk]
          conv_rhs => rw [findField]
          rw [if_pos rfl]
        · rw [List.filter_cons_of_neg (by simpa using hk)]
          rw [ih, if_neg hk, if_neg hk]
      · by_cases hk : (findField a k').isNone = true
        · rw [List.filter_cons_of_pos (by simpa using hk)]
          rw [findField, if_neg hkk, ih]
          by_cases h2 : (findField a k).isNone = true
          · rw [if_pos h2, if_pos h2]
            conv_rhs => rw [findField]
            rw [if_neg hkk]
          · rw [if_neg h2, if_neg h2]
        · rw [List.filter_cons_of_neg (by simpa using hk)]
          rw [ih]
          by_cases h2 : (findField a k).isNone = true
          · rw [if_pos h2, if_pos h2]
            conv_rhs => rw [findField]
            rw [if_neg hkk]
          · rw [if_neg h2, if_neg h2]

theorem findField_deepMerge_obj (a b : List (String × Value)) (k : String) :
    findField ((a.map (fun p =>
        (p.1, match findField b p.1 with
          | some w => deepMerge p.2 w
          | none => p.2)))
      ++ b.filter (fun q => (findField a q.1).isNone)) k =
      match findField a k, findField b k with
      | some va, some vb => some (deepMerge va vb)
      | some va, none => some va
      | none, some vb => some vb
      | none, none => none := by
  rw [findField_append]
  rw [findField_map a (fun p =>
    match findField b p.1 with
    | some w => deepMerge p.2 w
    | none => p.2) k]
  rw [findField_filter]
  cases ha : findField a k with
  | none =>
      cases hb : findField b k with
      | none => simp
      | some vb => simp
  | some va =>
      cases hb : findField b k with
      | none => simp [hb]
      | some vb => simp [hb]

theorem findField_mem (l : List (String × Value)) (k : String) (v : Value)
    (h : findField l k = some v) : k ∈ l.map Prod.fst := by
  by_contra hc
  rw [← findField_eq_none] at hc
  rw [h] at hc
  cases hc

theorem mergeElems_length (a b : List Value) :
    (((a.zip b).map (fun p => deepMerge p.1 p.2))
      ++ a.drop b.length ++ b.drop a.length).length = max a.length b.length := by
  simp only [List.length_append, List.length_map, List.length_zip,
    List.length_drop]
  omega

theorem mergeElems_getElem (a b : List Value) (i : Nat) :
    (((a.zip b).map (fun p => deepMerge p.1 p.2))
      ++ a.drop b.length ++ b.drop a.length)[i]? =
      match a[i]?, b[i]? with
      | some x, some y => some (deepMerge x y)
      | some x, none => some x
      | none, some y => some y
      | none, none => none := by
  induction a generalizing b i with
  | nil =>
      simp only [List.zip_nil_left, List.map_nil, List.drop_nil,
        List.nil_append, List.drop_zero, List.length_nil, List.getElem?_nil]
      cases hb : b[i]? <;> simp [hb]
  | cons x xs ih =>
      cases b with
      | nil =>
          simp only [List.zip_nil_right, List.map_nil, List.drop_nil,
            List.nil_append, List.drop_zero, List.length_nil,
            List.append_nil, List.getElem?_nil]
          cases ha : (x :: xs)[i]? <;> simp [ha]
      | cons y ys =>
          cases i with
          | zero => simp
          | succ j =>
              simp only [List.zip_cons_cons, List.map_cons, List.length_cons,
                List.drop_succ_cons, List.cons_append, List.getElem?_cons_succ]
              exact ih ys j

theorem ValEquiv.refl : ∀ v : Value, ValEquiv v v
  | .null => .null
  | .bool b => .bool b
  | .num n => .num n
  | .str s => .str s
  | .arr xs => .arr rfl (fun i hi => ValEquiv.refl (xs.get ⟨i, hi⟩))
  | .obj fs => .obj (List.Perm.refl _) (fun k v w h1 h2 => by
      rw [h1] at h2
      cases h2
      exact ValEquiv.refl v)
termination_by v => sizeOf v
decreasing_by
  · have h1 : xs.get ⟨i, hi⟩ ∈ xs := xs.get_mem _ _
    have h2 : sizeOf (xs.get ⟨i, hi⟩) < sizeOf xs := List.sizeOf_lt_of_mem h1
    simp only [Value.arr.sizeOf_spec]
    omega
  · have h2 : sizeOf v < sizeOf fs := findField_sizeOf fs k v h1
    simp only [Value.obj.sizeOf_spec]
    omega

theorem valEquiv_symm : ∀ {a b : Value}, ValEquiv a b → ValEquiv b a := by
  intro a b h
  induction h with
  | null => exact .null
  | bool b => exact .bool b
  | num n => exact .num n
  | str s => exact .str s
  | arr hlen h ih =>
      exact .arr hlen.symm (fun i hi => ih i (hlen.symm ▸ hi))
  | obj hkeys h ih =>
      exact .obj hkeys.symm (fun k v w h1 h2 => ih k w v h2 h1)

theorem ValEquiv.trans : ∀ {a b c : Value}, ValEquiv a b → ValEquiv b c →
    ValEquiv a c := by
  intro a b c hab
  induction hab generalizing c with
  | null => exact fun h => h
  | bool b => exact fun h => h
  | num n => exact fun h => h
  | str s => exact fun h => h
  | arr hlen h ih =>
      intro hbc
      cases hbc with
      | arr hlen2 h2 =>
          exact .arr (hlen.trans hlen2)
            (fun i hi => ih i hi (h2 i (hlen ▸ hi)))
  | obj hkeys h ih =>
      intro hbc
      cases hbc with
      | obj hkeys2 h2 =>
          refine .obj (hkeys.trans hkeys2) (fun k v w h1 hw => ?_)
          have hk := findField_mem _ k v h1
          obtain ⟨u, hu⟩ := findField_isSome _ k (hkeys.mem_iff.mp hk)
          exact ih k v u h1 hu (h2 k u w hu hw)

theorem disjointW_symm : ∀ {a b : Value}, DisjointW a b → DisjointW b a := by
  intro a b h
  induction h with
  | objs h ih => exact .objs (fun k vb va hb ha => ih k va vb ha hb)
  | arrs h ih =>
      refine .arrs (fun p hp => ?_)
      rw [← List.zip_swap] at hp
      obtain ⟨q, hq, hqp⟩ := List.mem_map.mp hp
      cases hqp
      exact ih q hq

theorem findField_mem_pair (l : List (String × Value)) (k : String) (v : Value)
    (h : findField l k = some v) : (k, v) ∈ l := by
  induction l with
  | nil => simp [findField] at h
  | cons p rest ih =>
      obtain ⟨k', v'⟩ := p
      rw [findField] at h
      split at h
      · next heq =>
          cases h
          subst heq
          exact List.mem_cons_self _ _
      · exact List.mem_cons_of_mem _ (ih h)

theorem mergeMap_keys (l : List (String × Value))
    (g : String × Value → Value) :
    ((l.map (fun p => (p.1, g p))).map Prod.fst) = l.map Prod.fst := by
  rw [List.map_map]
  rfl

theorem wfV_deepMerge : ∀ (a b : Value), WfV a → WfV b → WfV (deepMerge a b)
  | .obj fa, .obj fb, ha, hb => by
      rw [deepMerge_obj]
      have hnda : (fa.map Prod.fst).Nodup := by cases ha with | obj hnd _ => exact hnd
      have hndb : (fb.map Prod.fst).Nodup := by cases hb with | obj hnd _ => exact hnd
      have hva : ∀ p ∈ fa, WfV p.2 := by cases ha with | obj _ hv => exact hv
      have hvb : ∀ p ∈ fb, WfV p.2 := by cases hb with | obj _ hv => exact hv
      refine WfV.obj ?_ ?_
      · rw [List.map_append]
        rw [List.nodup_append]
        refine ⟨?_, hndb.sublist (List.Sublist.map _ (List.filter_sublist fb)), ?_⟩
        · rw [mergeMap_keys]
          exact hnda
        · intro k hk1 hk2
          rw [mergeMap_keys] at hk1
          obtain ⟨q, hq, rfl⟩ := List.mem_map.mp hk2
          have hpred := List.of_mem_filter hq
          simp only [Option.isNone_iff_eq_none, decide_eq_true_eq] at hpred
          exact absurd hk1 (by simpa using (findField_eq_none fa q.1).mp hpred)
      · intro p hp
        rcases List.mem_append.mp hp with hp | hp
        · obtain ⟨q, hq, rfl⟩ := List.mem_map.mp hp
          simp only
          cases hf : findField fb q.1 with
          | some w =>
              exact wfV_deepMerge q.2 w (hva q hq)
                (hvb (q.1, w) (findField_mem_pair fb q.1 w hf))
          | none => exact hva q hq
        · exact hvb p (List.mem_of_mem_filter hp)
  | .arr xa, .arr xb, ha, hb => by
      rw [deepMerge_arr]
      have hva : ∀ x ∈ xa, WfV x := by cases ha with | arr h => exact h
      have hvb : ∀ x ∈ xb, WfV x := by cases hb with | arr h => exact h
      refine WfV.arr ?_
      intro x hx
      rcases List.mem_append.mp hx with hx | hx
      · rcases List.mem_append.mp hx with hx | hx
        · obtain ⟨q, hq, rfl⟩ := List.mem_map.mp hx
          exact wfV_deepMerge q.1 q.2 (hva _ (List.of_mem_zip hq).1)
            (hvb _ (List.of_mem_zip hq).2)
        · exact hva _ (List.mem_of_mem_drop hx)
      · exact hvb _ (List.mem_of_mem_drop hx)
  | a, .null, ha, _ => by rw [deepMerge_null_right]; exact ha
  | .null, b, _, hb => by rw [deepMerge_null_left]; exact hb
  | .bool x, b, ha, hb => by cases b <;> simp [deepMerge] <;> assumption
  | .num x, b, ha, hb => by cases b <;> simp [deepMerge] <;> assumption
  | .str x, b, ha, hb => by cases b <;> simp [deepMerge] <;> assumption
  | .obj fa, .bool y, _, hb => by simp [deepMerge]; exact hb
  | .obj fa, .num y, _, hb => by simp [deepMerge]; exact hb
  | .obj fa, .str y, _, hb => by simp [deepMerge]; exact hb
  | .obj fa, .arr y, _, hb => by simp [deepMerge]; exact hb
  | .arr xa, .bool y, _, hb => by simp [deepMerge]; exact hb
  | .arr xa, .num y, _, hb => by simp [deepMerge]; exact hb
  | .arr xa, .str y, _, hb => by simp [deepMerge]; exact hb
  | .arr xa, .obj y, _, hb => by simp [deepMerge]; exact hb
termination_by a b _ _ => sizeOf a + sizeOf b
decreasing_by
  · have h1 : sizeOf q < sizeOf fa := List.sizeOf_lt_of_mem hq
    have h2 : sizeOf q.2 ≤ sizeOf q := by
      obtain ⟨k', v'⟩ := q
      simp
      try omega
    have h3 : sizeOf w < sizeOf fb := findField_sizeOf fb q.1 w hf
    simp only [Value.obj.sizeOf_spec]
    omega
  · have h1 : sizeOf q.1 < sizeOf xa := List.sizeOf_lt_of_mem (List.of_mem_zip hq).1
    have h2 : sizeOf q.2 < sizeOf xb := List.sizeOf_lt_of_mem (List.of_mem_zip hq).2
    simp only [Value.arr.sizeOf_spec]
    omega

theorem ValEquiv.arr_of_getElem (xs ys : List Value)
    (hlen : xs.length = ys.length)
    (h : ∀ (i : Nat) (x y : Value), xs[i]? = some x → ys[i]? = some y →
      ValEquiv x y) : ValEquiv (.arr xs) (.arr ys) :=
  .arr hlen (fun i hi =>
    h i _ _ (List.getElem?_eq_getElem hi)
      (List.getElem?_eq_getElem (hlen ▸ hi)))

theorem ValEquiv.arr_getElem {xs ys : List Value}
    (h : ValEquiv (.arr xs) (.arr ys)) {i : Nat} {x y : Value}
    (hx : xs[i]? = some x) (hy : ys[i]? = some y) : ValEquiv x y := by
  cases h with
  | arr hlen h =>
      obtain ⟨hltx, hex⟩ := List.getElem?_eq_some_iff.mp hx
      obtain ⟨hlty, hey⟩ := List.getElem?_eq_some_iff.mp hy
      have := h i hltx
      rw [List.get_eq_getElem] at this
      rw [List.get_eq_getElem] at this
      rw [hex] at this
      rw [hey] at this
      exact this

theorem ValEquiv.arr_length {xs ys : List Value}
    (h : ValEquiv (.arr xs) (.arr ys)) : xs.length = ys.length := by
  cases h with
  | arr hlen _ => exact hlen

theorem deepMerge_congr_left : ∀ (c a b : Value), ValEquiv a b →
    ValEquiv (deepMerge a c) (deepMerge b c)
  | c, _, _, .null => ValEquiv.refl _
  | c, _, _, .bool x => ValEquiv.refl _
  | c, _, _, .num n => ValEquiv.refl _
  | c, _, _, .str s => ValEquiv.refl _
  | c, _, _, @ValEquiv.arr xs ys hlen h => by
      cases c with
      | null =>
          rw [deepMerge_null_right, deepMerge_null_right]
          exact .arr hlen h
      | bool x => simpa [deepMerge] using ValEquiv.refl (Value.bool x)
      | num n => simpa [deepMerge] using ValEquiv.refl (Value.num n)
      | str s => simpa [deepMerge] using ValEquiv.refl (Value.str s)
      | obj cs => simpa [deepMerge] using ValEquiv.refl (Value.obj cs)
      | arr cs =>
          rw [deepMerge_arr, deepMerge_arr]
          refine ValEquiv.arr_of_getElem _ _ ?_ ?_
          · rw [mergeElems_length, mergeElems_length, hlen]
          · intro i x y hx hy
            rw [mergeElems_getElem] at hx hy
            cases hxs : xs[i]? with
            | some xv =>
                have hlt : i < ys.length := by
                  have := (List.getElem?_eq_some_iff.mp hxs).1
                  omega
                have hys : ys[i]? = some (ys[i]) :=
                  List.getElem?_eq_getElem hlt
                have hxy : ValEquiv xv (ys[i]) :=
                  ValEquiv.arr_getElem (.arr hlen h) hxs hys
                rw [hxs] at hx
                rw [hys] at hy
                cases hcs : cs[i]? with
                | some cv =>
                    rw [hcs] at hx hy
                    cases hx
                    cases hy
                    exact deepMerge_congr_left cv xv (ys[i]) hxy
                | none =>
                    rw [hcs] at hx hy
                    cases hx
                    cases hy
                    exact hxy
            | none =>
                have hys : ys[i]? = none := by
                  rw [List.getElem?_eq_none_iff] at hxs ⊢
                  omega
                rw [hxs] at hx
                rw [hys] at hy
                cases hcs : cs[i]? with
                | some cv =>
                    rw [hcs] at hx hy
                    cases hx
                    cases hy
                    exact ValEquiv.refl _
                | none =>
                    rw [hcs] at hx
                    cases hx
  | c, _, _, @ValEquiv.obj fs gs hkeys h => by
      cases c with
      | null =>
          rw [deepMerge_null_right, deepMerge_null_right]
          exact .obj hkeys h
      | bool x => simpa [deepMerge] using ValEquiv.refl (Value.bool x)
      | num n => simpa [deepMerge] using ValEquiv.refl (Value.num n)
      | str s => simpa [deepMerge] using ValEquiv.refl (Value.str s)
      | arr cs => simpa [deepMerge] using ValEquiv.refl (Value.arr cs)
      | obj cs =>
          rw [deepMerge_obj, deepMerge_obj]
          have hfe : cs.filter (fun q => (findField fs q.1).isNone) =
              cs.filter (fun q => (findField gs q.1).isNone) := by
            apply List.filter_congr
            intro q _hq
            cases hf1 : findField fs q.1 with
            | none =>
                cases hf2 : findField gs q.1 with
                | none => rfl
                | some w =>
                    exact absurd
                      (hkeys.mem_iff.mpr (findField_mem gs q.1 w hf2))
                      ((findField_eq_none fs q.1).mp hf1)
            | some w =>
                cases hf2 : findField gs q.1 with
                | none =>
                    exact absurd
                      (hkeys.mem_iff.mp (findField_mem fs q.1 w hf1))
                      ((findField_eq_none gs q.1).mp hf2)
                | some w2 => rfl
          refine ValEquiv.obj ?_ ?_
          · rw [List.map_append, List.map_append, hfe,
              mergeMap_keys, mergeMap_keys]
            exact hkeys.append_right _
          · intro k v w hv hw
            rw [findField_deepMerge_obj] at hv hw
            cases hfs : findField fs k with
            | some va =>
                obtain ⟨vb, hgs⟩ := findField_isSome gs k
                  (hkeys.mem_iff.mp (findField_mem fs k va hfs))
                have hab : ValEquiv va vb := h k va vb hfs hgs
                rw [hfs] at hv
                rw [hgs] at hw
                cases hcs : findField cs k with
                | some cv =>
                    rw [hcs] at hv hw
                    cases hv
                    cases hw
                    exact deepMerge_congr_left cv va vb hab
                | none =>
                    rw [hcs] at hv hw
                    cases hv
                    cases hw
                    exact hab
            | none =>
                have hgs : findField gs k = none := by
                  rw [findField_eq_none] at hfs ⊢
                  exact fun hc => hfs (hkeys.mem_iff.mpr hc)
                rw [hfs] at hv
                rw [hgs] at hw
                cases hcs : findField cs k with
                | some cv =>
                    rw [hcs] at hv hw
                    cases hv
                    cases hw
                    exact ValEquiv.refl _
                | none =>
                    rw [hcs] at hv
                    cases hv
termination_by c _ _ _ => sizeOf c
decreasing_by
  · have h2 : sizeOf cv < sizeOf elems :=
      List.sizeOf_lt_of_mem (List.getElem?_mem hcs)
    simp only [Value.arr.sizeOf_spec]
    omega
  · have h2 : sizeOf cv < sizeOf fields := findField_sizeOf fields k cv hcs
    simp only [Value.obj.sizeOf_spec]
    omega

theorem WfV.obj_nodup {fs : List (String × Value)} (h : WfV (.obj fs)) :
    (fs.map Prod.fst).Nodup := by
  cases h with | obj hnd _ => exact hnd

theorem WfV.obj_values {fs : List (String × Value)} (h : WfV (.obj fs)) :
    ∀ p ∈ fs, WfV p.2 := by
  cases h with | obj _ hv => exact hv

theorem WfV.arr_values {xs : List Value} (h : WfV (.arr xs)) :
    ∀ x ∈ xs, WfV x := by
  cases h with | arr hv => exact hv

theorem WfV.findField {fs : List (String × Value)} (h : WfV (.obj fs))
    {k : String} {v : Value} (hf : findField fs k = some v) : WfV v :=
  h.obj_values (k, v) (findField_mem_pair fs k v hf)

theorem WfV.getElem {xs : List Value} (h : WfV (.arr xs)) {i : Nat}
    {x : Value} (hx : xs[i]? = some x) : WfV x :=
  h.arr_values x (List.getElem?_mem hx)

theorem mem_keys_merge (fa fb : List (String × Value)) (k : String) :
    (k ∈ fa.map Prod.fst ++
      (fb.filter (fun q => (findField fa q.1).isNone)).map Prod.fst) ↔
    k ∈ fa.map Prod.fst ∨ k ∈ fb.map Prod.fst := by
  rw [List.mem_append]
  constructor
  · rintro (h | h)
    · exact .inl h
    · obtain ⟨q, hq, rfl⟩ := List.mem_map.mp h
      exact .inr (List.mem_map.mpr ⟨q, List.mem_of_mem_filter hq, rfl⟩)
  · rintro (h | h)
    · exact .inl h
    · by_cases hm : k ∈ fa.map Prod.fst
      · exact .inl hm
      · right
        obtain ⟨q, hq, rfl⟩ := List.mem_map.mp h
        refine List.mem_map.mpr ⟨q, List.mem_filter.mpr ⟨hq, ?_⟩, rfl⟩
        simpa [Option.isNone_iff_eq_none] using (findField_eq_none fa q.1).mpr hm

theorem nodup_keys_merge (fa fb : List (String × Value))
    (hnda : (fa.map Prod.fst).Nodup) (hndb : (fb.map Prod.fst).Nodup) :
    (fa.map Prod.fst ++
      (fb.filter (fun q => (findField fa q.1).isNone)).map Prod.fst).Nodup := by
  rw [List.nodup_append]
  refine ⟨hnda, hndb.sublist (List.Sublist.map _ (List.filter_sublist fb)), ?_⟩
  intro k hk1 hk2
  obtain ⟨q, hq, rfl⟩ := List.mem_map.mp hk2
  have hpred := List.of_mem_filter hq
  simp only [Option.isNone_iff_eq_none, decide_eq_true_eq] at hpred
  exact absurd hk1 (by simpa using (findField_eq_none fa q.1).mp hpred)

theorem deepMerge_comm_disjoint : ∀ {a b : Value}, DisjointW a b →
    WfV a → WfV b → ValEquiv (deepMerge a b) (deepMerge b a) := by
  intro a b hd
  induction hd with
  | @objs fa fb hsub ih =>
      intro ha hb
      rw [deepMerge_obj, deepMerge_obj]
      refine ValEquiv.obj ?_ ?_
      · rw [List.map_append, List.map_append, mergeMap_keys, mergeMap_keys]
        refine (List.perm_ext_iff_of_nodup
          (nodup_keys_merge fa fb ha.obj_nodup hb.obj_nodup)
          (nodup_keys_merge fb fa hb.obj_nodup ha.obj_nodup)).mpr ?_
        intro k
        rw [mem_keys_merge, mem_keys_merge]
        tauto
      · intro k v w hv hw
        rw [findField_deepMerge_obj] at hv hw
        cases hfa : findField fa k with
        | some va =>
            cases hfb : findField fb k with
            | some vb =>
                rw [hfa, hfb] at hv hw
                cases hv
                cases hw
                exact ih k va vb hfa hfb (ha.findField hfa) (hb.findField hfb)
            | none =>
                rw [hfa, hfb] at hv hw
                cases hv
                cases hw
                exact ValEquiv.refl _
        | none =>
            cases hfb : findField fb k with
            | some vb =>
                rw [hfa, hfb] at hv hw
                cases hv
                cases hw
                exact ValEquiv.refl _
            | none =>
                rw [hfa, hfb] at hv
                cases hv
  | @arrs xa xb hsub ih =>
      intro ha hb
      rw [deepMerge_arr, deepMerge_arr]
      refine ValEquiv.arr_of_getElem _ _ ?_ ?_
      · rw [mergeElems_length, mergeElems_length]
        omega
      · intro i x y hx hy
        rw [mergeElems_getElem] at hx hy
        cases hxa : xa[i]? with
        | some xv =>
            cases hxb : xb[i]? with
            | some yv =>
                rw [hxa, hxb] at hx hy
                cases hx
                cases hy
                have hmem : (xv, yv) ∈ xa.zip xb :=
                  List.getElem?_mem
                    (List.getElem?_zip_eq_some.mpr ⟨hxa, hxb⟩)
                exact ih (xv, yv) hmem (ha.getElem hxa) (hb.getElem hxb)
            | none =>
                rw [hxa, hxb] at hx hy
                cases hx
                cases hy
                exact ValEquiv.refl _
        | none =>
            cases hxb : xb[i]? with
            | some yv =>
                rw [hxa, hxb] at hx hy
                cases hx
                cases hy
                exact ValEquiv.refl _
            | none =>
                rw [hxa, hxb] at hx
                cases hx

theorem mem_keys_iff_findField (l : List (String × Value)) (k : String) :
    k ∈ l.map Prod.fst ↔ ¬ findField l k = none := by
  constructor
  · intro h hn
    exact (findField_eq_none l k).mp hn h
  · intro h
    by_contra hm
    exact h ((findField_eq_none l k).mpr hm)

theorem findField_mergeOut_none (fa fb : List (String × Value)) (k : String) :
    findField ((fa.map (fun p =>
        (p.1, match findField fb p.1 with
          | some w => deepMerge p.2 w
          | none => p.2)))
      ++ fb.filter (fun q => (findField fa q.1).isNone)) k = none ↔
      findField fa k = none ∧ findField fb k = none := by
  rw [findField_deepMerge_obj]
  cases hfa : findField fa k <;> cases hfb : findField fb k <;> simp

theorem deepMerge_swap_disjoint : ∀ {a b : Value}, DisjointW a b →
    WfV a → WfV b → ∀ acc : Value, WfV acc →
    ValEquiv (deepMerge (deepMerge acc a) b) (deepMerge (deepMerge acc b) a) := by
  intro a b hd
  induction hd with
  | @objs fa fb hsub ih =>
      intro ha hb acc hacc
      cases acc with
      | null =>
          rw [deepMerge_null_left, deepMerge_null_left]
          exact deepMerge_comm_disjoint (.objs hsub) ha hb
      | bool z =>
          rw [show deepMerge (Value.bool z) (Value.obj fa) = Value.obj fa from by
            simp [deepMerge]]
          rw [show deepMerge (Value.bool z) (Value.obj fb) = Value.obj fb from by
            simp [deepMerge]]
          exact deepMerge_comm_disjoint (.objs hsub) ha hb
      | num z =>
          rw [show deepMerge (Value.num z) (Value.obj fa) = Value.obj fa from by
            simp [deepMerge]]
          rw [show deepMerge (Value.num z) (Value.obj fb) = Value.obj fb from by
            simp [deepMerge]]
          exact deepMerge_comm_disjoint (.objs hsub) ha hb
      | str z =>
          rw [show deepMerge (Value.str z) (Value.obj fa) = Value.obj fa from by
            simp [deepMerge]]
          rw [show deepMerge (Value.str z) (Value.obj fb) = Value.obj fb from by
            simp [deepMerge]]
          exact deepMerge_comm_disjoint (.objs hsub) ha hb
      | arr zs =>
          rw [show deepMerge (Value.arr zs) (Value.obj fa) = Value.obj fa from by
            simp [deepMerge]]
          rw [show deepMerge (Value.arr zs) (Value.obj fb) = Value.obj fb from by
            simp [deepMerge]]
          exact deepMerge_comm_disjoint (.objs hsub) ha hb
      | obj accf =>
          have h3 := wfV_deepMerge (deepMerge (.obj accf) (.obj fa)) (.obj fb)
            (wfV_deepMerge _ _ hacc ha) hb
          have h4 := wfV_deepMerge (deepMerge (.obj accf) (.obj fb)) (.obj fa)
            (wfV_deepMerge _ _ hacc hb) ha
          rw [deepMerge_obj accf fa, deepMerge_obj] at h3
          rw [deepMerge_obj accf fb, deepMerge_obj] at h4
          rw [deepMerge_obj accf fa, deepMerge_obj accf fb,
            deepMerge_obj, deepMerge_obj]
          refine ValEquiv.obj ?_ ?_
          · refine (List.perm_ext_iff_of_nodup h3.obj_nodup h4.obj_nodup).mpr ?_
            intro k
            rw [mem_keys_iff_findField, mem_keys_iff_findField,
              findField_mergeOut_none, findField_mergeOut_none,
              findField_mergeOut_none, findField_mergeOut_none]
            tauto
          · intro k v w hv hw
            cases hac : findField accf k with
            | some w0 =>
                cases hfa : findField fa k with
                | some va =>
                    have hA1 : findField ((accf.map (fun p =>
                        (p.1, match findField fa p.1 with
                          | some u => deepMerge p.2 u
                          | none => p.2)))
                        ++ fa.filter (fun q => (findField accf q.1).isNone)) k =
                        some (deepMerge w0 va) := by
                      rw [findField_deepMerge_obj, hac, hfa]
                    cases hfb : findField fb k with
                    | some vb =>
                        have hB1 : findField ((accf.map (fun p =>
                            (p.1, match findField fb p.1 with
                              | some u => deepMerge p.2 u
                              | none => p.2)))
                            ++ fb.filter (fun q => (findField accf q.1).isNone)) k =
                            some (deepMerge w0 vb) := by
                          rw [findField_deepMerge_obj, hac, hfb]
                        rw [findField_deepMerge_obj, hA1, hfb] at hv
                        rw [findField_deepMerge_obj, hB1, hfa] at hw
                        cases hv
                        cases hw
                        exact ih k va vb hfa hfb (ha.findField hfa)
                          (hb.findField hfb) w0 (hacc.findField hac)
                    | none =>
                        have hB1 : findField ((accf.map (fun p =>
                            (p.1, match findField fb p.1 with
                              | some u => deepMerge p.2 u
                              | none => p.2)))
                            ++ fb.filter (fun q => (findField accf q.1).isNone)) k =
                            some w0 := by
                          rw [findField_deepMerge_obj, hac, hfb]
                        rw [findField_deepMerge_obj, hA1, hfb] at hv
                        rw [findField_deepMerge_obj, hB1, hfa] at hw
                        cases hv
                        cases hw
                        exact ValEquiv.refl _
                | none =>
                    have hA1 : findField ((accf.map (fun p =>
                        (p.1, match findField fa p.1 with
                          | some u => deepMerge p.2 u
                          | none => p.2)))
                        ++ fa.filter (fun q => (findField accf q.1).isNone)) k =
                        some w0 := by
                      rw [findField_deepMerge_obj, hac, hfa]
                    cases hfb : findField fb k with
                    | some vb =>
                        have hB1 : findField ((accf.map (fun p =>
                            (p.1, match findField fb p.1 with
                              | some u => deepMerge p.2 u
                              | none => p.2)))
                            ++ fb.filter (fun q => (findField accf q.1).isNone)) k =
                            some (deepMerge w0 vb) := by
                          rw [findField_deepMerge_obj, hac, hfb]
                        rw [findField_deepMerge_obj, hA1, hfb] at hv
                        rw [findField_deepMerge_obj, hB1, hfa] at hw
                        cases hv
                        cases hw
                        exact ValEquiv.refl _
                    | none =>
                        have hB1 : findField ((accf.map (fun p =>
                            (p.1, match findField fb p.1 with
                              | some u => deepMerge p.2 u
                              | none => p.2)))
                            ++ fb.filter (fun q => (findField accf q.1).isNone)) k =
                            some w0 := by
                          rw [findField_deepMerge_obj, hac, hfb]
                        rw [findField_deepMerge_obj, hA1, hfb] at hv
                        rw [findField_deepMerge_obj, hB1, hfa] at hw
                        cases hv
                        cases hw
                        exact ValEquiv.refl _
            | none =>
                cases hfa : findField fa k with
                | some va =>
                    have hA1 : findField ((accf.map (fun p =>
                        (p.1, match findField fa p.1 with
                          | some u => deepMerge p.2 u
                          | none => p.2)))
                        ++ fa.filter (fun q => (findField accf q.1).isNone)) k =
                        some va := by
                      rw [findField_deepMerge_obj, hac, hfa]
                    cases hfb : findField fb k with
                    | some vb =>
                        have hB1 : findField ((accf.map (fun p =>
                            (p.1, match findField fb p.1 with
                              | some u => deepMerge p.2 u
                              | none => p.2)))
                            ++ fb.filter (fun q => (findField accf q.1).isNone)) k =
                            some vb := by
                          rw [findField_deepMerge_obj, hac, hfb]
                        rw [findField_deepMerge_obj, hA1, hfb] at hv
                        rw [findField_deepMerge_obj, hB1, hfa] at hw
                        cases hv
                        cases hw
                        exact deepMerge_comm_disjoint (hsub k va vb hfa hfb)
                          (ha.findField hfa) (hb.findField hfb)
                    | none =>
                        have hB1 : findField ((accf.map (fun p =>
                            (p.1, match findField fb p.1 with
                              | some u => deepMerge p.2 u
                              | none => p.2)))
                            ++ fb.filter (fun q => (findField accf q.1).isNone)) k =
                            none := by
                          rw [findField_deepMerge_obj, hac, hfb]
                        rw [findField_deepMerge_obj, hA1, hfb] at hv
                        rw [findField_deepMerge_obj, hB1, hfa] at hw
                        cases hv
                        cases hw
                        exact ValEquiv.refl _
                | none =>
                    have hA1 : findField ((accf.map (fun p =>
                        (p.1, match findField fa p.1 with
                          | some u => deepMerge p.2 u
                          | none => p.2)))
                        ++ fa.filter (fun q => (findField accf q.1).isNone)) k =
                        none := by
                      rw [findField_deepMerge_obj, hac, hfa]
                    cases hfb : findField fb k with
                    | some vb =>
                        have hB1 : findField ((accf.map (fun p =>
                            (p.1, match findField fb p.1 with
                              | some u => deepMerge p.2 u
                              | none => p.2)))
                            ++ fb.filter (fun q => (findField accf q.1).isNone)) k =
                            some vb := by
                          rw [findField_deepMerge_obj, hac, hfb]
                        rw [findField_deepMerge_obj, hA1, hfb] at hv
                        rw [findField_deepMerge_obj, hB1, hfa] at hw
                        cases hv
                        cases hw
                        exact ValEquiv.refl _
                    | none =>
                        have hA1 : findField ((accf.map (fun p =>
                            (p.1, match findField fa p.1 with
                              | some u => deepMerge p.2 u
                              | none => p.2)))
                            ++ fa.filter (fun q => (findField accf q.1).isNone)) k =
                            none := by
                          rw [findField_deepMerge_obj, hac, hfa]
                        rw [findField_deepMerge_obj, hA1, hfb] at hv
                        cases hv
  | @arrs xa xb hsub ih =>
      intro ha hb acc hacc
      cases acc with
      | null =>
          rw [deepMerge_null_left, deepMerge_null_left]
          exact deepMerge_comm_disjoint (.arrs hsub) ha hb
      | bool z =>
          rw [show deepMerge (Value.bool z) (Value.arr xa) = Value.arr xa from by
            simp [deepMerge]]
          rw [show deepMerge (Value.bool z) (Value.arr xb) = Value.arr xb from by
            simp [deepMerge]]
          exact deepMerge_comm_disjoint (.arrs hsub) ha hb
      | num z =>
          rw [show deepMerge (Value.num z) (Value.arr xa) = Value.arr xa from by
            simp [deepMerge]]
          rw [show deepMerge (Value.num z) (Value.arr xb) = Value.arr xb from by
            simp [deepMerge]]
          exact deepMerge_comm_disjoint (.arrs hsub) ha hb
      | str z =>
          rw [show deepMerge (Value.str z) (Value.arr xa) = Value.arr xa from by
            simp [deepMerge]]
          rw [show deepMerge (Value.str z) (Value.arr xb) = Value.arr xb from by
            simp [deepMerge]]
          exact deepMerge_comm_disjoint (.arrs hsub) ha hb
      | obj zf =>
          rw [show deepMerge (Value.obj zf) (Value.arr xa) = Value.arr xa from by
            simp [deepMerge]]
          rw [show deepMerge (Value.obj zf) (Value.arr xb) = Value.arr xb from by
            simp [deepMerge]]
          exact deepMerge_comm_disjoint (.arrs hsub) ha hb
      | arr accs =>
          rw [deepMerge_arr accs xa, deepMerge_arr accs xb,
            deepMerge_arr, deepMerge_arr]
          refine ValEquiv.arr_of_getElem _ _ ?_ ?_
          · rw [mergeElems_length, mergeElems_length, mergeElems_length,
              mergeElems_length]
            omega
          · intro i x y hx hy
            rw [mergeElems_getElem, mergeElems_getElem] at hx
            rw [mergeElems_getElem, mergeElems_getElem] at hy
            cases hac : accs[i]? with
            | some w0 =>
                cases hxa : xa[i]? with
                | some xv =>
                    cases hxb : xb[i]? with
                    | some yv =>
                        rw [hac, hxa, hxb] at hx hy
                        cases hx
                        cases hy
                        have hmem : (xv, yv) ∈ xa.zip xb :=
                          List.getElem?_mem
                            (List.getElem?_zip_eq_some.mpr ⟨hxa, hxb⟩)
                        exact ih (xv, yv) hmem (ha.getElem hxa)
                          (hb.getElem hxb) w0 (hacc.getElem hac)
                    | none =>
                        rw [hac, hxa, hxb] at hx hy
                        cases hx
                        cases hy
                        exact ValEquiv.refl _
                | none =>
                    cases hxb : xb[i]? with
                    | some yv =>
                        rw [hac, hxa, hxb] at hx hy
                        cases hx
                        cases hy
                        exact ValEquiv.refl _
                    | none =>
                        rw [hac, hxa, hxb] at hx hy
                        cases hx
                        cases hy
                        exact ValEquiv.refl _
            | none =>
                cases hxa : xa[i]? with
                | some xv =>
                    cases hxb : xb[i]? with
                    | some yv =>
                        rw [hac, hxa, hxb] at hx hy
                        cases hx
                        cases hy
                        have hmem : (xv, yv) ∈ xa.zip xb :=
                          List.getElem?_mem
                            (List.getElem?_zip_eq_some.mpr ⟨hxa, hxb⟩)
                        exact deepMerge_comm_disjoint (hsub (xv, yv) hmem)
                          (ha.getElem hxa) (hb.getElem hxb)
                    | none =>
                        rw [hac, hxa, hxb] at hx hy
                        cases hx
                        cases hy
                        exact ValEquiv.refl _
                | none =>
                    cases hxb : xb[i]? with
                    | some yv =>
                        rw [hac, hxa, hxb] at hx hy
                        cases hx
                        cases hy
                        exact ValEquiv.refl _
                    | none =>
                        rw [hac, hxa, hxb] at hx
                        cases hx

theorem foldl_deepMerge_congr : ∀ (l : List Value) (acc1 acc2 : Value),
    ValEquiv acc1 acc2 →
    ValEquiv (l.foldl deepMerge acc1) (l.foldl deepMerge acc2)
  | [], _acc1, _acc2, h => h
  | c :: rest, acc1, acc2, h =>
      foldl_deepMerge_congr rest _ _ (deepMerge_congr_left c _ _ h)

theorem foldl_deepMerge_perm : ∀ {l l' : List Value}, l.Perm l' →
    (∀ x ∈ l, WfV x) → l.Pairwise DisjointW → ∀ acc : Value, WfV acc →
    ValEquiv (l.foldl deepMerge acc) (l'.foldl deepMerge acc) := by
  intro l l' hp
  induction hp with
  | nil =>
      intro _ _ acc _
      exact ValEquiv.refl _
  | @cons x l1 l2 hp ih =>
      intro hwf hpw acc hacc
      simp only [List.foldl_cons]
      exact ih (fun y hy => hwf y (List.mem_cons_of_mem _ hy))
        (List.pairwise_cons.mp hpw).2 (deepMerge acc x)
        (wfV_deepMerge _ _ hacc (hwf x (List.mem_cons_self _ _)))
  | swap x y l =>
      intro hwf hpw acc hacc
      simp only [List.foldl_cons]
      refine foldl_deepMerge_congr l _ _ ?_
      have hd : DisjointW y x := (List.pairwise_cons.mp hpw).1 x
        (List.mem_cons_self _ _)
      exact deepMerge_swap_disjoint hd
        (hwf y (List.mem_cons_self _ _))
        (hwf x (List.mem_cons_of_mem _ (List.mem_cons_self _ _)))
        acc hacc
  | @trans l1 l2 l3 h1 h2 ih1 ih2 =>
      intro hwf hpw acc hacc
      refine (ih1 hwf hpw acc hacc).trans (ih2 ?_ ?_ acc hacc)
      · intro y hy
        exact hwf y (h1.mem_iff.mpr hy)
      · exact (h1.pairwise_iff (fun h => disjointW_symm h)).mp hpw

theorem execPar_value : ∀ (nodes : List PlanNode) (P : ExecParams) (dir : Path)
    (parent acc : Value),
    (execPar P dir parent nodes acc).value =
      (nodes.map (fun n => (execNode P dir parent n).value)).foldl deepMerge acc
  | [], P, dir, parent, acc => by rw [execPar]; rfl
  | n :: rest, P, dir, parent, acc => by
      rw [execPar]
      simp only [List.map_cons, List.foldl_cons]
      exact execPar_value rest P dir parent _

theorem disjointW_ab :
    DisjointW (.obj [("a", Value.num 1)]) (.obj [("b", Value.num 2)]) := by
  refine DisjointW.objs ?_
  intro k va vb h1 h2
  rw [findField] at h1 h2
  split at h1
  · next heq =>
      subst heq
      rw [if_neg (by decide)] at h2
      rw [findField] at h2
      cases h2
  · rw [findField] at h1
    cases h1

theorem wfV_obj_a : WfV (.obj [("a", Value.num 1)]) := by
  refine WfV.obj (by decide) ?_
  intro p hp
  simp only [List.mem_singleton] at hp
  subst hp
  exact WfV.num 1

theorem wfV_obj_b : WfV (.obj [("b", Value.num 2)]) := by
  refine WfV.obj (by decide) ?_
  intro p hp
  simp only [List.mem_singleton] at hp
  subst hp
  exact WfV.num 2

/-- C2 counterexample: a `Parallel` with two fetch children whose results
`{"a":1}` and `{"b":2}` write disjoint paths; permuting the children yields
object values whose serialized bytes differ (the object key order is the
merge order), so the response is not byte-identical. -/
theorem c2_parallel_bytes_counterexample :
    DisjointW (.obj [("a", .num 1)]) (.obj [("b", .num 2)]) ∧
    (execNode ⟨[], fun f _ _ => if f.service_name = "A"
        then .ok (.obj [("a", .num 1)], []) else .ok (.obj [("b", .num 2)], []),
        []⟩ [] .null
      (.parallel [.fetch ⟨"A", "ia"⟩, .fetch ⟨"B", "ib"⟩])).value =
      .obj [("a", .num 1), ("b", .num 2)] ∧
    (execNode ⟨[], fun f _ _ => if f.service_name = "A"
        then .ok (.obj [("a", .num 1)], []) else .ok (.obj [("b", .num 2)], []),
        []⟩ [] .null
      (.parallel [.fetch ⟨"B", "ib"⟩, .fetch ⟨"A", "ia"⟩])).value =
      .obj [("b", .num 2), ("a", .num 1)] ∧
    serializeValue (.obj [("a", .num 1), ("b", .num 2)]) ≠
      serializeValue (.obj [("b", .num 2), ("a", .num 1)]) := by
  refine ⟨disjointW_ab, ?_, ?_, ?_⟩
  · simp [execNode, execPar, deepMerge_null_left, deepMerge_obj, findField]
  · simp [execNode, execPar, deepMerge_null_left, deepMerge_obj, findField]
  · have h1 : serializeValue (.obj [("a", .num 1), ("b", .num 2)]) =
        "\x7b\"a\":1,\"b\":2\x7d" := by
      simp [serializeValue]
      rfl
    have h2 : serializeValue (.obj [("b", .num 2), ("a", .num 1)]) =
        "\x7b\"b\":2,\"a\":1\x7d" := by
      simp [serializeValue]
      rfl
    rw [h1, h2]
    decide

/-- C2 (amended): for a `Parallel` node whose children's results are
well-formed and pairwise write disjoint paths, permuting the children yields
the same response value as unordered JSON: the merged values are `ValEquiv`
(equal key sets and equal values at every path, arrays pointwise).  The
serialized bytes may differ only in object key order, as the counterexample
shows. -/
theorem c2_parallel_merge_order (P : ExecParams) (dir : Path) (parent : Value)
    (nodes nodes' : List PlanNode) (hperm : nodes.Perm nodes')
    (hwf : ∀ n ∈ nodes, WfV (execNode P dir parent n).value)
    (hdisj : (nodes.map (fun n =>
      (execNode P dir parent n).value)).Pairwise DisjointW) :
    ValEquiv (execNode P dir parent (.parallel nodes)).value
      (execNode P dir parent (.parallel nodes')).value := by
  rw [execNode, execNode, execPar_value, execPar_value]
  refine foldl_deepMerge_perm (hperm.map _) ?_ hdisj .null .null
  intro v hv
  obtain ⟨n, hn, rfl⟩ := List.mem_map.mp hv
  exact hwf n hn

theorem c2_parallel_merge_order_witness :
    ValEquiv
      (execNode ⟨[], fun f _ _ => if f.service_name = "A"
          then .ok (.obj [("a", .num 1)], []) else .ok (.obj [("b", .num 2)], []),
          []⟩ [] .null
        (.parallel [.fetch ⟨"A", "ia"⟩, .fetch ⟨"B", "ib"⟩])).value
      (execNode ⟨[], fun f _ _ => if f.service_name = "A"
          then .ok (.obj [("a", .num 1)], []) else .ok (.obj [("b", .num 2)], []),
          []⟩ [] .null
        (.parallel [.fetch ⟨"B", "ib"⟩, .fetch ⟨"A", "ia"⟩])).value := by
  have hA : (execNode ⟨[], fun f _ _ => if f.service_name = "A"
      then .ok (.obj [("a", .num 1)], []) else .ok (.obj [("b", .num 2)], []),
      []⟩ [] .null (.fetch ⟨"A", "ia"⟩)).value = .obj [("a", .num 1)] := by
    simp [execNode]
  have hB : (execNode ⟨[], fun f _ _ => if f.service_name = "A"
      then .ok (.obj [("a", .num 1)], []) else .ok (.obj [("b", .num 2)], []),
      []⟩ [] .null (.fetch ⟨"B", "ib"⟩)).value = .obj [("b", .num 2)] := by
    simp [execNode]
  refine c2_parallel_merge_order _ [] .null _ _
    (List.Perm.swap (PlanNode.fetch ⟨"B", "ib"⟩) (PlanNode.fetch ⟨"A", "ia"⟩) []) ?_ ?_
  · intro n hn
    simp only [List.mem_cons, List.not_mem_nil, or_false] at hn
    rcases hn with rfl | rfl
    · rw [hA]
      exact wfV_obj_a
    · rw [hB]
      exact wfV_obj_b
  · simp only [List.map_cons, List.map_nil, hA, hB]
    refine List.Pairwise.cons ?_ (List.Pairwise.cons ?_ List.Pairwise.nil)
    · intro b hb
      simp only [List.mem_singleton] at hb
      subst hb
      exact disjointW_ab
    · intro b hb
      exact absurd hb (List.not_mem_nil b)
